import Mathlib

/-!
Verification development for the QERLO task-offloading schedulers.

Shallow embedding of the scheduling core found in
`src/algorithms/QIPSO.py`, `src/algorithms/First_come_first_server.py`
and `src/algorithms/heft.py`.  Python floats are modelled as rationals,
Python dictionaries as functions into `Option`, in-place mutation of the
task graph as explicit graph transformation, and raised exceptions as
`none` results.  Each definition mirrors one Python function and is named
after it where Lean naming rules allow.
-/

namespace QTO

/-- One task of a DAG workload.  Tasks are identified by natural numbers
(the code relabels node identifiers to strings; identity of labels is
irrelevant to the algorithms).  `tasks` is the topologically sorted task
list, exactly the `task_list` the schedulers iterate over; `pred` and
`succ` are the predecessor and successor lists of the graph; `execTime`,
`compCost` and `comm` model the optional node attributes `exec_time` and
`comp_cost` and the optional edge attribute `comm_cost`. -/
structure TaskGraph where
  tasks : List ℕ
  pred : ℕ → List ℕ
  succ : ℕ → List ℕ
  execTime : ℕ → Option ℚ
  compCost : ℕ → Option ℚ
  comm : ℕ → ℕ → Option ℚ

/-- Kernel-computable binary maximum on the rationals (Python `max`).
Mathlib `max` on `Rat` is not reducible by the kernel; this variant is,
and `qmax_eq_max` rewrites it to the Mathlib one inside proofs. -/
def qmax (a b : ℚ) : ℚ := if a < b then b else a

/-- Kernel-computable binary minimum on the rationals (Python `min`). -/
def qmin (a b : ℚ) : ℚ := if a < b then a else b

/-- Kernel-computable absolute value on the rationals (Python `abs`). -/
def qabs (a : ℚ) : ℚ := if a < 0 then -a else a

/-- Python `max(list)` for a nonempty list; returns 0 on the empty list
(where the Python call would raise, which never happens at the places
this is used with the well-formedness hypotheses of the theorems). -/
def listMax : List ℚ → ℚ
  | [] => 0
  | x :: xs => xs.foldl qmax x

/-- Per-task duration used by `QIPSO_Scheduler.find_critical_path`
(line 64): `max(0.1, exec_time)` where `exec_time` defaults to
`comp_cost / 1000` and `comp_cost` defaults to `10000`. -/
def cpTaskTime (G : TaskGraph) (t : ℕ) : ℚ :=
  match G.execTime t with
  | some e => qmax (1/10) e
  | none => qmax (1/10) (((G.compCost t).getD 10000) / 1000)

/-- Per-task duration used by `QIPSO_Scheduler.evaluate_schedule`
(line 100): `max(0.1, exec_time)` where `exec_time` defaults to `10`. -/
def evalDuration (G : TaskGraph) (t : ℕ) : ℚ :=
  qmax (1/10) ((G.execTime t).getD 10)

/-- Forward pass of `find_critical_path` (lines 68-74): successively
propagates `earliest_start[succ] = max(earliest_start[succ],
earliest_start[task] + time[task])` over the topological task list,
starting from the defaultdict value 0. -/
def esInnerStep (d : ℕ → ℚ) (t : ℕ) (es2 : ℕ → ℚ) (s : ℕ) : ℕ → ℚ :=
  fun x => if x = s then qmax (es2 s) (es2 t + d t) else es2 x

def esOuterStep (G : TaskGraph) (d : ℕ → ℚ) (es : ℕ → ℚ) (t : ℕ) : ℕ → ℚ :=
  (G.succ t).foldl (esInnerStep d t) es

def esFold (G : TaskGraph) (d : ℕ → ℚ) : ℕ → ℚ :=
  G.tasks.foldl (esOuterStep G d) (fun _ => 0)

/-- Backward pass of `find_critical_path` (lines 76-82):
`latest_finish[pred] = min(latest_finish[pred], latest_finish[task] -
time[pred])` over the reversed task list.  The defaultdict default
`max(earliest_start.values())` is the constant `M`: the dictionary only
grows by zero entries after the first materialisation and all earliest
start values are nonnegative, so the lazily evaluated default never
changes. -/
def lfFold (G : TaskGraph) (d : ℕ → ℚ) (M : ℚ) : ℕ → ℚ :=
  G.tasks.reverse.foldl
    (fun lf t =>
      (G.pred t).foldl
        (fun lf2 p => fun x => if x = p then qmin (lf2 p) (lf2 t - d p) else lf2 x)
        lf)
    (fun _ => M)

/-- `QIPSO_Scheduler.find_critical_path` (lines 61-91).  Returns the
critical path task list and the critical length
`max(earliest_start.values()) + time[critical_path[-1]]`.  On a graph
with an empty task list the Python code raises (`task_list[0]` on the
fallback line 89), modelled as `none`. -/
def find_critical_path (G : TaskGraph) : Option (List ℕ × ℚ) :=
  match G.tasks with
  | [] => none
  | t0 :: rest =>
    let time := cpTaskTime G
    let es := esFold G time
    let M := listMax ((t0 :: rest).map es)
    let lf := lfFold G time M
    let cp0 := (t0 :: rest).filter (fun t => qabs (es t - (lf t - time t)) < 1/1000000)
    let cp := if cp0 = [] then [t0] else cp0
    some (cp, M + time (cp.getLastD t0))

/-- Entry of a produced schedule: the per-task record
`{assigned_node, start_time, end_time}` stored by all three schedulers. -/
structure SchedEntry where
  assigned_node : ℕ
  start_time : ℚ
  end_time : ℚ
deriving DecidableEq

/-- Node power coefficients `[1.0 + 0.2 * i for i in range(n)]`, shared by
all three schedulers. -/
def nodePowers (n : ℕ) : List ℚ :=
  (List.range n).map (fun i => 1 + (1/5) * (i : ℚ))

/-- State of the shared per-task simulation: `avail` is
`node_available_time` / `device_end_times` (modelled as a function on node
indices), `denergy` is the per-device energy accumulator `device_energy`
of `evaluate_schedule` (FCFS does not read it), `entries` collects the
per-task schedule records. -/
structure SimSt where
  avail : ℕ → ℚ
  denergy : ℕ → ℚ
  entries : ℕ → Option SchedEntry

def initSimSt : SimSt := ⟨fun _ => 0, fun _ => 0, fun _ => none⟩

/-- Ready time of a task: `max([finish.get(pred, 0) for pred in preds] + [0])`
(`schedule_fcfs` line 36, `evaluate_schedule` lines 102-104). -/
def readyTime (entries : ℕ → Option SchedEntry) (preds : List ℕ) : ℚ :=
  preds.foldl (fun a p => qmax a ((entries p).elim 0 (fun en => en.end_time))) 0

/-- First index of `0..n-1` minimising `f`, as computed by Python
`min(range(n), key=f)` (ties keep the smallest index). -/
def argminRange (n : ℕ) (f : ℕ → ℚ) : ℕ :=
  (List.range n).foldl (fun b i => if f i < f b then i else b) 0

/-- One step of the shared simulation loop: compute the duration and the
ready time, pick a node, start at `max(ready, avail[node])`, end after the
duration, update the node availability and the per-device energy.  This is
the common body of `schedule_fcfs` (lines 34-50) and
`QIPSO_Scheduler.evaluate_schedule` (lines 98-112); the two instantiations
differ only in the duration function and in the `pick` rule. -/
def simStep (G : TaskGraph) (d : ℕ → ℚ) (powers : List ℚ)
    (pick : SimSt → ℕ → ℕ) (st : SimSt) (t : ℕ) : SimSt :=
  let dur := d t
  let ready := readyTime st.entries (G.pred t)
  let node := pick st t
  let start := qmax ready (st.avail node)
  let endT := start + dur
  { avail := fun i => if i = node then endT else st.avail i
    denergy := fun i => if i = node then st.denergy i + (powers.getD node 0) * dur
               else st.denergy i
    entries := fun x => if x = t then some ⟨node, start, endT⟩ else st.entries x }

def simSteps (G : TaskGraph) (d : ℕ → ℚ) (powers : List ℚ)
    (pick : SimSt → ℕ → ℕ) (st : SimSt) (l : List ℕ) : SimSt :=
  l.foldl (simStep G d powers pick) st

def simRun (G : TaskGraph) (d : ℕ → ℚ) (powers : List ℚ)
    (pick : SimSt → ℕ → ℕ) : SimSt :=
  simSteps G d powers pick initSimSt G.tasks

/-- `normalize_execution_times` (First_come_first_server.py lines 9-13):
for every node of the graph, if `exec_time` (default 10) is below the
floor 0.1 the attribute is overwritten with 0.1.  The Python function
mutates the graph in place; the mutation is modelled by returning the
updated graph. -/
def normalize_execution_times (G : TaskGraph) : TaskGraph :=
  { G with execTime := fun t =>
      if t ∈ G.tasks then
        match G.execTime t with
        | some e => if e < 1/10 then some (1/10) else some e
        | none => none
      else G.execTime t }

/-- `calculate_energy_consumption` (First_come_first_server.py lines
15-21): sum of `(end_time - start_time) * node_powers[assigned_node]`
over the stored schedule entries, iterated in task order. -/
def calculate_energy_consumption (tasks : List ℕ)
    (sched : ℕ → Option SchedEntry) (node_powers : List ℚ) : ℚ :=
  tasks.foldl
    (fun acc t =>
      match sched t with
      | some en => acc + (en.end_time - en.start_time) * (node_powers.getD en.assigned_node 0)
      | none => acc)
    0

/-- Result dictionary of `schedule_fcfs` (lines 67-72). -/
structure FcfsResult where
  makespan : ℚ
  energy : ℚ
  schedule : ℕ → Option SchedEntry
  node_powers : List ℚ

/-- Duration read by the FCFS loop (line 35), on the already normalized
graph: `max(0.1, G.nodes[task].get('exec_time', 10))`. -/
def fcfsDuration (G : TaskGraph) (t : ℕ) : ℚ :=
  qmax (1/10) ((G.execTime t).getD 10)

/-- `schedule_fcfs` (First_come_first_server.py lines 23-72): normalize
the execution times (mutating the graph), then visit the tasks in
topological order, assigning each to the node with the smallest current
availability (first index on ties), and finally report the makespan
`max(node_available_time)` and the energy recomputed from the stored
schedule. -/
def schedule_fcfs (G : TaskGraph) (num_edge_nodes : ℕ) : FcfsResult :=
  let G' := normalize_execution_times G
  let powers := nodePowers num_edge_nodes
  let st := simRun G' (fcfsDuration G') powers
    (fun st _ => argminRange num_edge_nodes st.avail)
  { makespan := listMax ((List.range num_edge_nodes).map st.avail)
    energy := calculate_energy_consumption G'.tasks st.entries powers
    schedule := st.entries
    node_powers := powers }

/-- Graph left behind by a `schedule_fcfs` call: the only mutation the
call performs on its input graph is `normalize_execution_times`. -/
def fcfsGraphAfter (G : TaskGraph) : TaskGraph := normalize_execution_times G

/-- `QIPSO_Scheduler.evaluate_schedule` (lines 93-114) as a full
simulation: runs the shared loop with the per-task durations
`max(0.1, exec_time or 10)` and the node chosen by the given total
assignment.  The Python code keeps only the finish times; the recorded
start/end/node entries are exactly the values it computes per task. -/
def evalSim (G : TaskGraph) (num_nodes : ℕ) (assign : ℕ → ℕ) : SimSt :=
  simRun G (evalDuration G) (nodePowers num_nodes) (fun _ t => assign t)

/-- Return value of `evaluate_schedule`:
`(max(device_end_times), sum(device_energy))`. -/
def evaluate_schedule (G : TaskGraph) (num_nodes : ℕ) (assign : ℕ → ℕ) : ℚ × ℚ :=
  let st := evalSim G num_nodes assign
  (listMax ((List.range num_nodes).map st.avail),
   ((List.range num_nodes).map st.denergy).sum)

/-- `HEFTScheduler._get_task_cost` (heft.py lines 31-39): `comp_cost`
divided by `avg_comp_cost` if present, else `exec_time / avg_comp_cost`,
else `10.0 / avg_comp_cost`. -/
def heftCost (avg : ℚ) (G : TaskGraph) (t : ℕ) : ℚ :=
  match G.compCost t with
  | some c => c / avg
  | none =>
    match G.execTime t with
    | some e => e / avg
    | none => 10 / avg

/-- `HEFTScheduler._get_comm_cost` (heft.py lines 41-45): `comm_cost`
of the edge divided by `avg_comp_cost`, or 0 when absent. -/
def heftComm (avg : ℚ) (G : TaskGraph) (p t : ℕ) : ℚ :=
  match G.comm p t with
  | some c => c / avg
  | none => 0

/-- `HEFTScheduler.compute_upward_rank` (heft.py lines 16-29):
`rank(t) = cost(t)` for tasks without successors, otherwise
`cost(t) + max over successors s of (rank(s) + comm(t,s))`.  The memoized
recursion of the code is realised as a dynamic program over the reverse
topological order: every successor of `t` lies strictly later in
`tasks`, so its rank is already computed when `t` is processed. -/
def compute_upward_rank (G : TaskGraph) (avg : ℚ) : ℕ → ℚ :=
  G.tasks.reverse.foldl
    (fun rk t => fun x =>
      if x = t then
        match G.succ t with
        | [] => heftCost avg G t
        | s :: ss =>
          heftCost avg G t + listMax ((s :: ss).map (fun s2 => rk s2 + heftComm avg G t s2))
      else rk x)
    (fun _ => 0)

/-- Stable insertion of `x` into a list sorted by descending key: `x` is
placed after every element whose key is greater than or equal to its own,
which is exactly the tie behaviour of Python `sorted(..., reverse=True)`
(a stable sort keeping equal-key elements in input order). -/
def insertDesc (key : ℕ → ℚ) (x : ℕ) : List ℕ → List ℕ
  | [] => [x]
  | y :: ys => if key x ≤ key y then y :: insertDesc key x ys else x :: y :: ys

/-- Stable descending sort by `key`, modelling
`sorted(task_list, key=lambda x: rank[x], reverse=True)` (heft.py line 57). -/
def sortDesc (key : ℕ → ℚ) (l : List ℕ) : List ℕ :=
  l.foldl (fun acc x => insertDesc key x acc) []

/-- The order in which `HEFTScheduler.schedule` visits tasks: by
descending upward rank, ties broken by the original topological order. -/
def heftOrder (G : TaskGraph) (avg : ℚ) : List ℕ :=
  sortDesc (compute_upward_rank G avg) G.tasks

/-- Ready time of a task in HEFT (heft.py lines 67-73): 0 when the task
has no predecessors, otherwise the maximum over predecessors of
`end_time(pred) + comm(pred, task)`.  A predecessor that has not been
scheduled yet raises a `KeyError` in the Python dictionary lookup,
modelled as `none`. -/
def optEnds (entries : ℕ → Option SchedEntry) (commTo : ℕ → ℚ) :
    List ℕ → Option (List ℚ)
  | [] => some []
  | p :: ps =>
    match entries p, optEnds entries commTo ps with
    | some ep, some rest => some ((ep.end_time + commTo p) :: rest)
    | _, _ => none

def heftReady (entries : ℕ → Option SchedEntry) (commTo : ℕ → ℚ)
    (preds : List ℕ) : Option ℚ :=
  match optEnds entries commTo preds with
  | none => none
  | some [] => some 0
  | some (x :: xs) => some (xs.foldl qmax x)

/-- One task of `HEFTScheduler.schedule` (heft.py lines 62-95): the node
minimising the estimated finish time `max(ready, avail[i]) + comp` is
chosen (first index on ties, exactly the strict-improvement scan of the
code; since `comp` is added to every candidate the scan is equivalent to
minimising `max(ready, avail[i])`). -/
def heftStep (G : TaskGraph) (avg : ℚ) (n : ℕ) (ost : Option SimSt) (t : ℕ) :
    Option SimSt :=
  match ost with
  | none => none
  | some st =>
    let comp := heftCost avg G t
    match heftReady st.entries (fun p => heftComm avg G p t) (G.pred t) with
    | none => none
    | some ready =>
      let node := argminRange n (fun i => qmax ready (st.avail i))
      let start := qmax ready (st.avail node)
      let endT := start + comp
      some { avail := fun i => if i = node then endT else st.avail i
             denergy := st.denergy
             entries := fun x => if x = t then some ⟨node, start, endT⟩ else st.entries x }

/-- `HEFTScheduler.schedule` (heft.py lines 47-97). -/
def HEFT_schedule (G : TaskGraph) (avg : ℚ) (n : ℕ) : Option SimSt :=
  (heftOrder G avg).foldl (heftStep G avg n) (some initSimSt)

/-- `HEFTScheduler.get_makespan` (heft.py lines 99-103): 0 on an empty
schedule, otherwise the maximal stored end time multiplied by
`avg_comp_cost`. -/
def heftMakespan (G : TaskGraph) (avg : ℚ) (n : ℕ) : ℚ :=
  match HEFT_schedule G avg n with
  | none => 0
  | some st =>
    match (heftOrder G avg).filterMap (fun t => (st.entries t).map (fun en => en.end_time)) with
    | [] => 0
    | e :: es => (es.foldl qmax e) * avg

/-- `HEFTScheduler.calculate_energy` (heft.py lines 106-113): sum over
the stored schedule of `(end_time - start_time) * node_powers[node]`,
multiplied by `avg_comp_cost`. -/
def heftEnergy (G : TaskGraph) (avg : ℚ) (n : ℕ) : ℚ :=
  match HEFT_schedule G avg n with
  | none => 0
  | some st =>
    ((heftOrder G avg).foldl
      (fun acc t =>
        match st.entries t with
        | some en => acc + (en.end_time - en.start_time) * ((nodePowers n).getD en.assigned_node 0)
        | none => acc)
      0) * avg

/-- The energy recomputation named by the specification: from the stored
per-task `(start, end, node)` tuples of a HEFT schedule, sum
`(end - start) * power[node]` (this is `calculate_energy_consumption`
applied to the HEFT schedule entries and the HEFT node powers). -/
def heftRecomputedEnergy (G : TaskGraph) (avg : ℚ) (n : ℕ) : ℚ :=
  match HEFT_schedule G avg n with
  | none => 0
  | some st => calculate_energy_consumption (heftOrder G avg) st.entries (nodePowers n)

/-- Raw directed graph handed to the `QIPSO_Scheduler` constructor
before any topological sorting. -/
structure RawGraph where
  nodes : List ℕ
  edges : List (ℕ × ℕ)

/-- A vertex with no incoming edge from the remaining vertex set. -/
def noIncoming (edges : List (ℕ × ℕ)) (remaining : List ℕ) (v : ℕ) : Bool :=
  remaining.all (fun u => !(decide ((u, v) ∈ edges)))

/-- Kahn topological sort: repeatedly output every remaining vertex
without incoming edges from the remaining set; fail when none exists
(the graph has a cycle).  This models the
`list(nx.topological_sort(...))` call of QIPSO.py line 24, which raises
`NetworkXUnfeasible` exactly when the graph contains a cycle. -/
def kahnAux (edges : List (ℕ × ℕ)) : ℕ → List ℕ → List ℕ → Option (List ℕ)
  | _, acc, [] => some acc
  | 0, _, _ :: _ => none
  | fuel + 1, acc, v :: vs =>
    let r := v :: vs
    let ready := r.filter (noIncoming edges r)
    if ready = [] then none
    else kahnAux edges fuel (acc ++ ready) (r.filter (fun x => !(decide (x ∈ ready))))

def topoSortList (g : RawGraph) : Option (List ℕ) :=
  kahnAux g.edges g.nodes.length [] g.nodes

/-- `QIPSO_Scheduler.__init__` (QIPSO.py lines 11-52), reduced to its
success/failure behaviour; on success the topological task list is
returned.  The checks in code order: `num_edge_nodes < 1` (line 16),
mutation probability outside `[0, 1]` (line 18), cycle detection by the
topological sort (lines 23-27).  Afterwards the constructor still calls
`find_critical_path` (line 39), which raises on an empty task list, and
`np.random.uniform` with shape `(num_particles, ...)` (line 43), which
raises on a negative dimension; both are part of construction and are
modelled as failures.  No other validation is performed: in particular
`num_particles = 0`, `max_iter = 0` and negative `max_iter` are accepted. -/
def qipsoInit (g : RawGraph) (num_edge_nodes num_particles max_iter : ℤ)
    (mutation_prob : ℚ) : Option (List ℕ) :=
  if num_edge_nodes < 1 then none
  else if mutation_prob < 0 ∨ mutation_prob > 1 then none
  else
    match topoSortList g with
    | none => none
    | some order =>
      if order = [] then none
      else if num_particles < 0 then none
      else
        let _ := max_iter
        some order

/-- Optimiser state tracked across QIPSO iterations: the per-particle
personal best makespans, the global best makespan and energy, and the
convergence history.  Python initialises the bests to `float('inf')`,
modelled as `none`; a comparison `m < inf` is `true`.  The personal and
global best schedules only feed the quantum-state update, which in turn
only shapes the random sampling distribution; sampling is abstracted by
an explicit oracle, so the schedules are not tracked. -/
structure QState where
  pbScores : List (Option ℚ)
  gbScore : Option ℚ
  gbEnergy : Option ℚ
  history : List (Option ℚ × Option ℚ)

/-- Python comparison `m < v` where `v` may be `float('inf')` (`none`). -/
def optLtB (m : ℚ) : Option ℚ → Bool
  | none => true
  | some v => decide (m < v)

/-- Personal/global best update for one particle (QIPSO.py lines
132-139): the global best is only examined when the personal best
improved, exactly as in the nested conditional of the code. -/
def particleUpd (me : ℚ × ℚ) (st : QState) (p : ℕ) : QState :=
  if optLtB me.1 (st.pbScores.getD p none) then
    let st1 : QState :=
      { st with pbScores := st.pbScores.set p (some me.1) }
    if optLtB me.1 st1.gbScore then
      { st1 with gbScore := some me.1, gbEnergy := some me.2 }
    else st1
  else st

/-- One QIPSO iteration (QIPSO.py lines 119-142) under a sampling oracle:
`assign p` is the complete task assignment drawn for particle `p` at this
iteration (the categorical draws from the quantum bits, lines 123-128).
Every particle is evaluated and the bests updated, then
`(global_best_score, global_best_energy)` is appended to the convergence
history.  The quantum-state update (line 141) only changes the sampling
distribution of later draws, which the oracle already abstracts. -/
def qIteration (G : TaskGraph) (nn np : ℕ) (assign : ℕ → ℕ → ℕ) (st : QState) : QState :=
  let st1 := (List.range np).foldl
    (fun s p => particleUpd (evaluate_schedule G nn (assign p)) s p) st
  { st1 with history := st1.history ++ [(st1.gbScore, st1.gbEnergy)] }

/-- Minimum of two extended values where `none` is `float('inf')`. -/
def optMin2 : Option ℚ → Option ℚ → Option ℚ
  | none, b => b
  | some a, none => some a
  | some a, some b => some (qmin a b)

/-- Python `min` over a list of possibly infinite floats. -/
def optListMin (l : List (Option ℚ)) : Option ℚ := l.foldl optMin2 none

/-- `QIPSO_Scheduler.check_convergence` (QIPSO.py lines 181-197): reach
the theoretical bound when `abs(global_best - critical_length) < 0.1`;
stagnate when more than 20 history entries exist and the minimum of the
last 20 recorded best makespans is within 0.1 of the current best.  When
the global best is still `float('inf')` both float comparisons are false
(`inf - inf` is `nan`). -/
def check_convergence (cl : ℚ) (st : QState) : Bool :=
  match st.gbScore with
  | none => false
  | some g =>
    decide (qabs (g - cl) < 1/10) ||
    (decide (st.history.length > 20) &&
      (match optListMin ((st.history.drop (st.history.length - 20)).map Prod.fst) with
       | none => false
       | some m => decide (qabs (m - g) < 1/10)))

/-- Terminal status of `run_optimization`: the loop either breaks out of
the iteration loop at a convergence check (CONVERGED) or exhausts
`max_iter` iterations (MAX_ITER_REACHED). -/
inductive QStatus where
  | converged
  | maxIterReached
deriving DecidableEq

def initQState (np : ℕ) : QState :=
  ⟨List.replicate np none, none, none, []⟩

/-- The iteration loop of `run_optimization` (QIPSO.py lines 119-145)
starting at iteration `i` with `fuel` iterations left. -/
def runFrom (G : TaskGraph) (nn np : ℕ) (cl : ℚ) (sampler : ℕ → ℕ → ℕ → ℕ) :
    ℕ → ℕ → QState → QStatus × QState
  | _, 0, st => (QStatus.maxIterReached, st)
  | i, fuel + 1, st =>
    let st1 := qIteration G nn np (sampler i) st
    if check_convergence cl st1 then (QStatus.converged, st1)
    else runFrom G nn np cl sampler (i + 1) fuel st1

/-- `QIPSO_Scheduler.run_optimization` (QIPSO.py lines 116-147) under a
sampling oracle, with `cl` the `critical_length` field computed at
construction. -/
def run_optimization (G : TaskGraph) (nn np max_iter : ℕ) (cl : ℚ)
    (sampler : ℕ → ℕ → ℕ → ℕ) : QStatus × QState :=
  runFrom G nn np cl sampler 0 max_iter (initQState np)

/-- State of the optimiser after `i` full iterations, had no convergence
check interrupted the loop (the per-iteration state evolution is
deterministic given the sampling oracle and independent of the checks). -/
def stateAfter (G : TaskGraph) (nn np : ℕ) (sampler : ℕ → ℕ → ℕ → ℕ) : ℕ → QState
  | 0 => initQState np
  | i + 1 => qIteration G nn np (sampler i) (stateAfter G nn np sampler i)

/-- Checks that `l` continues a topological enumeration whose already
emitted prefix is `seen`: every predecessor of every element of `l` lies
in `seen` or earlier in `l`. -/
def topoFromB (pr : ℕ → List ℕ) : List ℕ → List ℕ → Bool
  | _, [] => true
  | seen, t :: rest =>
    (pr t).all (fun p => decide (p ∈ seen)) && topoFromB pr (seen ++ [t]) rest

/-- Well-formed task graph, the input contract of the schedulers: the
task list is duplicate free and topologically sorted with respect to
`pred`, and every successor edge has a matching predecessor edge. -/
def WFGraph (G : TaskGraph) : Prop :=
  G.tasks.Nodup ∧ topoFromB G.pred [] G.tasks = true ∧
  ∀ q ∈ G.tasks, ∀ x ∈ G.succ q, q ∈ G.pred x

/-- Upper bound used to relate the forward pass values to simulated
ready times: 0 joined with the maximum of `earliest_start[p] + d p` over
the predecessors. -/
def esBound (G : TaskGraph) (d : ℕ → ℚ) (x : ℕ) : ℚ :=
  qmax 0 (listMax ((G.pred x).map (fun p => esFold G d p + d p)))

/-- All stored schedule entries have length equal to the duration
function: `end_time = start_time + duration`. -/
def EntryDur (d : ℕ → ℚ) (entries : ℕ → Option SchedEntry) : Prop :=
  ∀ x en, entries x = some en → en.end_time - en.start_time = d x

/-- Precedence invariant of a schedule: every scheduled task starts no
earlier than each of its predecessors ends, and those predecessors are
scheduled. -/
def Prec (G : TaskGraph) (entries : ℕ → Option SchedEntry) : Prop :=
  ∀ t en, entries t = some en → ∀ p ∈ G.pred t, ∃ ep,
    entries p = some ep ∧ ep.end_time ≤ en.start_time

/-- Lower bound invariant: every scheduled task ends no earlier than its
earliest start (longest predecessor chain) plus its own duration. -/
def EsLB (G : TaskGraph) (d : ℕ → ℚ) (entries : ℕ → Option SchedEntry) : Prop :=
  ∀ x en, entries x = some en → esFold G d x + d x ≤ en.end_time

/-- Node availability invariant: every scheduled task sits on a node
below `n` and ends no later than that node becomes available again. -/
def AvailB (n : ℕ) (avail : ℕ → ℚ) (entries : ℕ → Option SchedEntry) : Prop :=
  ∀ x en, entries x = some en → en.assigned_node < n ∧ en.end_time ≤ avail en.assigned_node

/-- The convergence condition of `check_convergence` as a proposition:
the global best is within 0.1 of the critical length, or more than 20
history entries exist and the minimum best makespan recorded over the
last 20 entries is within 0.1 of the current global best (stagnation). -/
def ConvCond (cl : ℚ) (st : QState) : Prop :=
  (∃ g, st.gbScore = some g ∧ |g - cl| < 1/10) ∨
  (20 < st.history.length ∧
    ∃ g m, st.gbScore = some g ∧
      optListMin ((st.history.drop (st.history.length - 20)).map Prod.fst) = some m ∧
      |m - g| < 1/10)

/-- A directed cycle presented as a nonempty vertex list: consecutive
vertices are joined by edges and the last vertex has an edge back to the
first. -/
def IsCycleList (edges : List (ℕ × ℕ)) : List ℕ → Prop
  | [] => False
  | v :: rest =>
    List.Chain (fun a b => (a, b) ∈ edges) v rest ∧ (rest.getLastD v, v) ∈ edges

/-- Two-task chain 0 → 1 with execution times 5 and 1: the concrete DAG
exhibiting that the critical length overstates the achievable makespan. -/
def Gchain : TaskGraph where
  tasks := [0, 1]
  pred := fun t => if t = 1 then [0] else []
  succ := fun t => if t = 0 then [1] else []
  execTime := fun t => if t = 0 then some 5 else if t = 1 then some 1 else none
  compCost := fun _ => none
  comm := fun _ _ => none

/-- Single task with execution time 10. -/
def G1 : TaskGraph where
  tasks := [0]
  pred := fun _ => []
  succ := fun _ => []
  execTime := fun t => if t = 0 then some 10 else none
  compCost := fun _ => none
  comm := fun _ _ => none

/-- Diamond DAG 0 → 1, 0 → 2, 1 → 3, 2 → 3 with all execution times 1
(tasks 0,1,2,3 standing for A,B,C,D). -/
def Gdiamond : TaskGraph where
  tasks := [0, 1, 2, 3]
  pred := fun t => if t = 1 then [0] else if t = 2 then [0] else if t = 3 then [1, 2] else []
  succ := fun t => if t = 0 then [1, 2] else if t = 1 then [3] else if t = 2 then [3] else []
  execTime := fun t => if t ≤ 3 then some 1 else none
  compCost := fun _ => none
  comm := fun _ _ => none

/-- Single task with the negative execution time -5. -/
def Gneg : TaskGraph where
  tasks := [0]
  pred := fun _ => []
  succ := fun _ => []
  execTime := fun t => if t = 0 then some (-5) else none
  compCost := fun _ => none
  comm := fun _ _ => none

/-- Single task with the sub-floor execution time 1/20. -/
def Gsmall : TaskGraph where
  tasks := [0]
  pred := fun _ => []
  succ := fun _ => []
  execTime := fun t => if t = 0 then some (1/20) else none
  compCost := fun _ => none
  comm := fun _ _ => none

/-- The task graph with no tasks at all. -/
def Gempty : TaskGraph where
  tasks := []
  pred := fun _ => []
  succ := fun _ => []
  execTime := fun _ => none
  compCost := fun _ => none
  comm := fun _ _ => none

/-- Single task whose only attribute is `comp_cost = 50000`: the two
duration derivations disagree on it (50 against 10). -/
def Gcomp : TaskGraph where
  tasks := [0]
  pred := fun _ => []
  succ := fun _ => []
  execTime := fun _ => none
  compCost := fun t => if t = 0 then some 50000 else none
  comm := fun _ _ => none

end QTO

namespace QTO

/-! ## Basic lemmas about the computable order operations -/

unseal Rat.add Rat.mul Rat.inv Rat.sub

theorem qmax_eq_max (a b : ℚ) : qmax a b = max a b := by
  simp only [qmax, max_def]
  rcases lt_trichotomy a b with h | h | h
  · rw [if_pos h, if_pos h.le]
  · subst h; simp
  · rw [if_neg (not_lt.mpr h.le), if_neg (not_le.mpr h)]

theorem qmin_eq_min (a b : ℚ) : qmin a b = min a b := by
  simp only [qmin, min_def]
  rcases lt_trichotomy a b with h | h | h
  · rw [if_pos h, if_pos h.le]
  · subst h; simp
  · rw [if_neg (not_lt.mpr h.le), if_neg (not_le.mpr h)]

theorem qabs_eq_abs (a : ℚ) : qabs a = |a| := by
  simp only [qabs, abs]
  rcases lt_trichotomy a 0 with h | h | h
  · rw [if_pos h, max_eq_right (by linarith : a ≤ -a)]
  · subst h; simp
  · rw [if_neg (not_lt.mpr h.le), max_eq_left (by linarith : -a ≤ a)]

theorem le_qmax_left (a b : ℚ) : a ≤ qmax a b := by
  rw [qmax_eq_max]; exact le_max_left a b

theorem le_qmax_right (a b : ℚ) : b ≤ qmax a b := by
  rw [qmax_eq_max]; exact le_max_right a b

theorem qmax_le {a b c : ℚ} (h1 : a ≤ c) (h2 : b ≤ c) : qmax a b ≤ c := by
  rw [qmax_eq_max]; exact max_le h1 h2

/-! ## Lemmas about folded maxima -/

theorem foldl_qmax_ge_init {α : Type} (f : α → ℚ) :
    ∀ (l : List α) (a : ℚ), a ≤ l.foldl (fun acc x => qmax acc (f x)) a := by
  intro l
  induction l with
  | nil => intro a; exact le_refl a
  | cons y ys ih =>
    intro a
    exact le_trans (le_qmax_left a (f y)) (ih (qmax a (f y)))

theorem foldl_qmax_ge_mem {α : Type} (f : α → ℚ) :
    ∀ (l : List α) (a : ℚ) (x : α), x ∈ l →
      f x ≤ l.foldl (fun acc x => qmax acc (f x)) a := by
  intro l
  induction l with
  | nil => intro a x hx; cases hx
  | cons y ys ih =>
    intro a x hx
    rcases List.mem_cons.mp hx with h | h
    · subst h
      exact le_trans (le_qmax_right a (f x)) (foldl_qmax_ge_init f ys (qmax a (f x)))
    · exact ih (qmax a (f y)) x h

theorem foldl_qmax_le {α : Type} (f : α → ℚ) :
    ∀ (l : List α) (a c : ℚ), a ≤ c → (∀ x ∈ l, f x ≤ c) →
      l.foldl (fun acc x => qmax acc (f x)) a ≤ c := by
  intro l
  induction l with
  | nil => intro a c h _; exact h
  | cons y ys ih =>
    intro a c ha hall
    exact ih (qmax a (f y)) c
      (qmax_le ha (hall y (List.mem_cons_self y ys)))
      (fun x hx => hall x (List.mem_cons_of_mem y hx))

theorem foldl_qmax_cases {α : Type} (f : α → ℚ) :
    ∀ (l : List α) (a : ℚ),
      l.foldl (fun acc x => qmax acc (f x)) a = a ∨
      ∃ x ∈ l, l.foldl (fun acc x => qmax acc (f x)) a = f x := by
  intro l
  induction l with
  | nil => intro a; exact Or.inl rfl
  | cons y ys ih =>
    intro a
    simp only [List.foldl_cons]
    rcases ih (qmax a (f y)) with h | ⟨x, hx, h⟩
    · by_cases hy : a < f y
      · exact Or.inr ⟨y, List.mem_cons_self y ys, by rw [h]; simp [qmax, hy]⟩
      · exact Or.inl (by rw [h]; simp [qmax, hy])
    · exact Or.inr ⟨x, List.mem_cons_of_mem y hx, h⟩

theorem listMax_eq_fold (x : ℚ) (xs : List ℚ) :
    listMax (x :: xs) = xs.foldl (fun acc y => qmax acc (id y)) x := rfl

theorem le_listMax_of_mem {l : List ℚ} {x : ℚ} (hx : x ∈ l) : x ≤ listMax l := by
  cases l with
  | nil => cases hx
  | cons y ys =>
    rw [listMax_eq_fold]
    rcases List.mem_cons.mp hx with h | h
    · subst h; exact foldl_qmax_ge_init id ys x
    · exact foldl_qmax_ge_mem id ys y x h

theorem listMax_le {l : List ℚ} {c : ℚ} (h0 : 0 ≤ c) (hall : ∀ x ∈ l, x ≤ c) :
    listMax l ≤ c := by
  cases l with
  | nil => exact h0
  | cons y ys =>
    rw [listMax_eq_fold]
    exact foldl_qmax_le id ys y c (hall y (List.mem_cons_self y ys))
      (fun x hx => hall x (List.mem_cons_of_mem y hx))

theorem listMax_mem {l : List ℚ} (h : l ≠ []) : listMax l ∈ l := by
  cases l with
  | nil => exact absurd rfl h
  | cons y ys =>
    rw [listMax_eq_fold]
    rcases foldl_qmax_cases id ys y with h1 | ⟨x, hx, h1⟩
    · rw [h1]; exact List.mem_cons_self y ys
    · rw [h1]; exact List.mem_cons_of_mem y hx

theorem readyTime_nonneg (entries : ℕ → Option SchedEntry) (preds : List ℕ) :
    0 ≤ readyTime entries preds :=
  foldl_qmax_ge_init (fun p => (entries p).elim 0 (fun en => en.end_time)) preds 0

theorem le_readyTime_of_mem (entries : ℕ → Option SchedEntry) {preds : List ℕ}
    {p : ℕ} (hp : p ∈ preds) :
    (entries p).elim 0 (fun en => en.end_time) ≤ readyTime entries preds :=
  foldl_qmax_ge_mem (fun q => (entries q).elim 0 (fun en => en.end_time)) preds 0 p hp

theorem argminRange_lt {n : ℕ} (hn : 0 < n) (f : ℕ → ℚ) : argminRange n f < n := by
  have key : ∀ (l : List ℕ) (b : ℕ), b < n → (∀ i ∈ l, i < n) →
      l.foldl (fun b i => if f i < f b then i else b) b < n := by
    intro l
    induction l with
    | nil => intro b hb _; exact hb
    | cons y ys ih =>
      intro b hb hall
      by_cases hy : f y < f b
      · simp only [List.foldl_cons, if_pos hy]
        exact ih y (hall y (List.mem_cons_self y ys)) (fun i hi => hall i (List.mem_cons_of_mem y hi))
      · simp only [List.foldl_cons, if_neg hy]
        exact ih b hb (fun i hi => hall i (List.mem_cons_of_mem y hi))
  exact key (List.range n) 0 hn (fun i hi => List.mem_range.mp hi)

/-! ## Lemmas about the forward pass -/

theorem le_foldl_esInner (d : ℕ → ℚ) (t : ℕ) :
    ∀ (sl : List ℕ) (es : ℕ → ℚ) (x : ℕ), es x ≤ (sl.foldl (esInnerStep d t) es) x := by
  intro sl
  induction sl with
  | nil => intro es x; exact le_refl _
  | cons s ss ih =>
    intro es x
    refine le_trans ?_ (ih (esInnerStep d t es s) x)
    simp only [esInnerStep]
    by_cases hx : x = s
    · subst hx; rw [if_pos rfl]; exact le_qmax_left _ _
    · rw [if_neg hx]

theorem le_foldl_esOuter (G : TaskGraph) (d : ℕ → ℚ) :
    ∀ (l : List ℕ) (es : ℕ → ℚ) (x : ℕ), es x ≤ (l.foldl (esOuterStep G d) es) x := by
  intro l
  induction l with
  | nil => intro es x; exact le_refl _
  | cons q qs ih =>
    intro es x
    exact le_trans (le_foldl_esInner d q (G.succ q) es x) (ih (esOuterStep G d es q) x)

theorem esFold_nonneg (G : TaskGraph) (d : ℕ → ℚ) (x : ℕ) : 0 ≤ esFold G d x :=
  le_foldl_esOuter G d G.tasks (fun _ => 0) x

theorem foldl_esInner_apply_of_not_mem (d : ℕ → ℚ) (t : ℕ) :
    ∀ (sl : List ℕ) (es : ℕ → ℚ) (x : ℕ), x ∉ sl →
      (sl.foldl (esInnerStep d t) es) x = es x := by
  intro sl
  induction sl with
  | nil => intro es x _; rfl
  | cons s ss ih =>
    intro es x hx
    have hxs : x ≠ s := fun h => hx (h ▸ List.mem_cons_self s ss)
    have hxss : x ∉ ss := fun h => hx (List.mem_cons_of_mem s h)
    rw [List.foldl_cons, ih _ x hxss]
    simp only [esInnerStep, if_neg hxs]

theorem esInner_preserves (G : TaskGraph) (d : ℕ → ℚ) (q : ℕ)
    (hdual : ∀ x ∈ G.succ q, q ∈ G.pred x) :
    ∀ (sl : List ℕ), (∀ s ∈ sl, s ∈ G.succ q) → q ∉ sl →
      ∀ (es : ℕ → ℚ), (∀ x, es x ≤ esBound G d x) → es q ≤ esFold G d q →
        ∀ x, (sl.foldl (esInnerStep d q) es) x ≤ esBound G d x := by
  intro sl
  induction sl with
  | nil => intro _ _ es hb _ x; exact hb x
  | cons s ss ih =>
    intro hsl hq es hb hqes
    have hqs : q ≠ s := fun h => hq (h ▸ List.mem_cons_self s ss)
    have hbound1 : ∀ x, (esInnerStep d q es s) x ≤ esBound G d x := by
      intro x
      simp only [esInnerStep]
      by_cases hx : x = s
      · subst hx
        rw [if_pos rfl]
        refine qmax_le (hb x) ?_
        have hmem : esFold G d q + d q ∈ (G.pred x).map (fun p => esFold G d p + d p) :=
          List.mem_map_of_mem _ (hdual x (hsl x (List.mem_cons_self x ss)))
        calc es q + d q ≤ esFold G d q + d q := add_le_add_right hqes _
          _ ≤ listMax ((G.pred x).map (fun p => esFold G d p + d p)) := le_listMax_of_mem hmem
          _ ≤ esBound G d x := le_qmax_right _ _
      · rw [if_neg hx]; exact hb x
    have hqes1 : (esInnerStep d q es s) q ≤ esFold G d q := by
      simp only [esInnerStep, if_neg hqs]; exact hqes
    exact ih (fun x hx => hsl x (List.mem_cons_of_mem s hx))
      (fun h => hq (List.mem_cons_of_mem s h)) _ hbound1 hqes1

theorem esFold_le_esBound (G : TaskGraph) (d : ℕ → ℚ)
    (hdual : ∀ q ∈ G.tasks, ∀ x ∈ G.succ q, q ∈ G.pred x)
    (hnoself : ∀ q ∈ G.tasks, q ∉ G.succ q) :
    ∀ x, esFold G d x ≤ esBound G d x := by
  have main : ∀ (l2 : List ℕ) (es : ℕ → ℚ),
      (∀ q ∈ l2, q ∈ G.tasks) →
      l2.foldl (esOuterStep G d) es = esFold G d →
      (∀ x, es x ≤ esBound G d x) →
      ∀ x, esFold G d x ≤ esBound G d x := by
    intro l2
    induction l2 with
    | nil =>
      intro es _ heq hb x
      rw [← heq]; exact hb x
    | cons q rest ih =>
      intro es hmem heq hb
      have hqG : q ∈ G.tasks := hmem q (List.mem_cons_self q rest)
      have hqes : es q ≤ esFold G d q := by
        calc es q ≤ (rest.foldl (esOuterStep G d) (esOuterStep G d es q)) q := by
              exact le_trans (le_foldl_esInner d q (G.succ q) es q)
                (le_foldl_esOuter G d rest (esOuterStep G d es q) q)
          _ = esFold G d q := by rw [← List.foldl_cons, heq]
      refine ih (esOuterStep G d es q)
        (fun x hx => hmem x (List.mem_cons_of_mem q hx)) heq ?_
      exact esInner_preserves G d q (hdual q hqG) (G.succ q) (fun s hs => hs)
        (hnoself q hqG) es hb hqes
  exact main G.tasks (fun _ => 0) (fun q hq => hq) rfl (fun x => le_qmax_left 0 _)

theorem esFold_congr (G : TaskGraph) (d d2 : ℕ → ℚ)
    (h : ∀ t ∈ G.tasks, d t = d2 t) : esFold G d = esFold G d2 := by
  have main : ∀ (l : List ℕ), (∀ t ∈ l, d t = d2 t) → ∀ (es : ℕ → ℚ),
      l.foldl (esOuterStep G d) es = l.foldl (esOuterStep G d2) es := by
    intro l
    induction l with
    | nil => intro _ es; rfl
    | cons q rest ih =>
      intro hl es
      have hq : d q = d2 q := hl q (List.mem_cons_self q rest)
      have hfun : esInnerStep d q = esInnerStep d2 q := by
        funext es2 s2 x
        simp only [esInnerStep, hq]
      have hstep : esOuterStep G d es q = esOuterStep G d2 es q := by
        rw [esOuterStep, esOuterStep, hfun]
      rw [List.foldl_cons, List.foldl_cons, hstep,
        ih (fun t ht => hl t (List.mem_cons_of_mem q ht))]
  exact main G.tasks h (fun _ => 0)


/-! ## Simulation invariants of the shared scheduling loop -/

theorem simSteps_nil (G : TaskGraph) (d : ℕ → ℚ) (powers : List ℚ)
    (pick : SimSt → ℕ → ℕ) (st : SimSt) : simSteps G d powers pick st [] = st := rfl

theorem simSteps_cons (G : TaskGraph) (d : ℕ → ℚ) (powers : List ℚ)
    (pick : SimSt → ℕ → ℕ) (st : SimSt) (t : ℕ) (rest : List ℕ) :
    simSteps G d powers pick st (t :: rest) =
      simSteps G d powers pick (simStep G d powers pick st t) rest := rfl

theorem simStep_entries (G : TaskGraph) (d : ℕ → ℚ) (powers : List ℚ)
    (pick : SimSt → ℕ → ℕ) (st : SimSt) (t x : ℕ) :
    (simStep G d powers pick st t).entries x =
      if x = t then
        some ⟨pick st t,
          qmax (readyTime st.entries (G.pred t)) (st.avail (pick st t)),
          qmax (readyTime st.entries (G.pred t)) (st.avail (pick st t)) + d t⟩
      else st.entries x := rfl

theorem simStep_avail (G : TaskGraph) (d : ℕ → ℚ) (powers : List ℚ)
    (pick : SimSt → ℕ → ℕ) (st : SimSt) (t i : ℕ) :
    (simStep G d powers pick st t).avail i =
      if i = pick st t then
        qmax (readyTime st.entries (G.pred t)) (st.avail (pick st t)) + d t
      else st.avail i := rfl

theorem topoFromB_cons {pr : ℕ → List ℕ} {seen : List ℕ} {t : ℕ} {rest : List ℕ}
    (h : topoFromB pr seen (t :: rest) = true) :
    (∀ p ∈ pr t, p ∈ seen) ∧ topoFromB pr (seen ++ [t]) rest = true := by
  simpa only [topoFromB, Bool.and_eq_true, List.all_eq_true, decide_eq_true_eq] using h

theorem not_mem_of_nodup_middle {seen rest : List ℕ} {t : ℕ}
    (h : (seen ++ t :: rest).Nodup) : t ∉ seen := by
  have h2 := List.nodup_middle.mp h
  intro hmem
  exact (List.nodup_cons.mp h2).1 (List.mem_append_left rest hmem)

theorem nodup_shift {seen rest : List ℕ} {t : ℕ}
    (h : (seen ++ t :: rest).Nodup) : ((seen ++ [t]) ++ rest).Nodup := by
  rwa [List.append_assoc, List.singleton_append]

theorem simSteps_precedence (G : TaskGraph) (d : ℕ → ℚ) (powers : List ℚ)
    (pick : SimSt → ℕ → ℕ) :
    ∀ (l seen : List ℕ) (st : SimSt),
      topoFromB G.pred seen l = true →
      (seen ++ l).Nodup →
      (∀ x, (∃ en, st.entries x = some en) ↔ x ∈ seen) →
      Prec G st.entries →
      (∀ x, (∃ en, (simSteps G d powers pick st l).entries x = some en) ↔ x ∈ seen ++ l) ∧
      Prec G (simSteps G d powers pick st l).entries := by
  intro l
  induction l with
  | nil =>
    intro seen st _ _ hdom hprec
    rw [simSteps_nil]
    exact ⟨fun x => by rw [List.append_nil]; exact hdom x, hprec⟩
  | cons t rest ih =>
    intro seen st htopo hnodup hdom hprec
    obtain ⟨hpred, htopo2⟩ := topoFromB_cons htopo
    have htseen : t ∉ seen := not_mem_of_nodup_middle hnodup
    rw [simSteps_cons]
    have hdom2 : ∀ x, (∃ en, (simStep G d powers pick st t).entries x = some en) ↔
        x ∈ seen ++ [t] := by
      intro x
      rw [simStep_entries]
      by_cases hx : x = t
      · subst hx; simp
      · rw [if_neg hx]
        simp only [List.mem_append, List.mem_singleton, hx, or_false]
        exact hdom x
    have hprec2 : Prec G (simStep G d powers pick st t).entries := by
      intro x en hen p hp
      rw [simStep_entries] at hen
      by_cases hx : x = t
      · subst hx
        rw [if_pos rfl] at hen
        injection hen with hen2
        have hpseen : p ∈ seen := hpred p hp
        have hpt : p ≠ x := fun h => htseen (h ▸ hpseen)
        obtain ⟨ep, hep⟩ := (hdom p).mpr hpseen
        refine ⟨ep, ?_, ?_⟩
        · rw [simStep_entries, if_neg hpt]; exact hep
        · have h1 : ep.end_time ≤ readyTime st.entries (G.pred x) := by
            have h2 := le_readyTime_of_mem st.entries hp
            rw [hep] at h2
            simpa using h2
          rw [← hen2]
          exact le_trans h1 (le_qmax_left _ _)
      · rw [if_neg hx] at hen
        obtain ⟨ep, hpe, hle⟩ := hprec x en hen p hp
        have hpseen : p ∈ seen := (hdom p).mp ⟨ep, hpe⟩
        have hpt : p ≠ t := fun h => htseen (h ▸ hpseen)
        exact ⟨ep, by rw [simStep_entries, if_neg hpt]; exact hpe, hle⟩
    have hres := ih (seen ++ [t]) (simStep G d powers pick st t)
      htopo2 (nodup_shift hnodup) hdom2 hprec2
    refine ⟨fun x => ?_, hres.2⟩
    rw [← List.singleton_append, ← List.append_assoc]
    exact hres.1 x

theorem simSteps_lower (G : TaskGraph) (d : ℕ → ℚ) (powers : List ℚ)
    (pick : SimSt → ℕ → ℕ) (n : ℕ)
    (hd : ∀ x, 0 ≤ d x) (hpick : ∀ st t, pick st t < n)
    (hub : ∀ x, esFold G d x ≤ esBound G d x) :
    ∀ (l seen : List ℕ) (st : SimSt),
      topoFromB G.pred seen l = true →
      (seen ++ l).Nodup →
      (∀ x, (∃ en, st.entries x = some en) ↔ x ∈ seen) →
      EsLB G d st.entries →
      AvailB n st.avail st.entries →
      (∀ x, (∃ en, (simSteps G d powers pick st l).entries x = some en) ↔ x ∈ seen ++ l) ∧
      EsLB G d (simSteps G d powers pick st l).entries ∧
      AvailB n (simSteps G d powers pick st l).avail
        (simSteps G d powers pick st l).entries := by
  intro l
  induction l with
  | nil =>
    intro seen st _ _ hdom hes hav
    rw [simSteps_nil]
    exact ⟨fun x => by rw [List.append_nil]; exact hdom x, hes, hav⟩
  | cons t rest ih =>
    intro seen st htopo hnodup hdom hes hav
    obtain ⟨hpred, htopo2⟩ := topoFromB_cons htopo
    have htseen : t ∉ seen := not_mem_of_nodup_middle hnodup
    rw [simSteps_cons]
    have hdom2 : ∀ x, (∃ en, (simStep G d powers pick st t).entries x = some en) ↔
        x ∈ seen ++ [t] := by
      intro x
      rw [simStep_entries]
      by_cases hx : x = t
      · subst hx; simp
      · rw [if_neg hx]
        simp only [List.mem_append, List.mem_singleton, hx, or_false]
        exact hdom x
    have hready : esBound G d t ≤ readyTime st.entries (G.pred t) := by
      refine qmax_le (readyTime_nonneg _ _) ?_
      refine listMax_le (readyTime_nonneg _ _) ?_
      intro v hv
      obtain ⟨p, hp, rfl⟩ := List.mem_map.mp hv
      obtain ⟨ep, hep⟩ := (hdom p).mpr (hpred p hp)
      have h1 : esFold G d p + d p ≤ ep.end_time := hes p ep hep
      have h2 := le_readyTime_of_mem st.entries hp
      rw [hep] at h2
      simp only [Option.elim] at h2
      exact le_trans h1 h2
    have hes2 : EsLB G d (simStep G d powers pick st t).entries := by
      intro x en hen
      rw [simStep_entries] at hen
      by_cases hx : x = t
      · subst hx
        rw [if_pos rfl] at hen
        injection hen with hen2
        rw [← hen2]
        have h1 : esFold G d x ≤ qmax (readyTime st.entries (G.pred x)) (st.avail (pick st x)) :=
          le_trans (hub x) (le_trans hready (le_qmax_left _ _))
        simpa using add_le_add_right h1 (d x)
      · rw [if_neg hx] at hen
        exact hes x en hen
    have hav2 : AvailB n (simStep G d powers pick st t).avail
        (simStep G d powers pick st t).entries := by
      intro x en hen
      rw [simStep_entries] at hen
      by_cases hx : x = t
      · subst hx
        rw [if_pos rfl] at hen
        injection hen with hen2
        rw [← hen2]
        exact ⟨hpick st x, by rw [simStep_avail, if_pos rfl]⟩
      · rw [if_neg hx] at hen
        obtain ⟨hn, hend⟩ := hav x en hen
        refine ⟨hn, ?_⟩
        rw [simStep_avail]
        by_cases hnode : en.assigned_node = pick st t
        · rw [if_pos hnode]
          refine le_trans hend ?_
          rw [hnode]
          have h1 : st.avail (pick st t) ≤
              qmax (readyTime st.entries (G.pred t)) (st.avail (pick st t)) :=
            le_qmax_right _ _
          have h2 := hd t
          linarith
        · rw [if_neg hnode]
          exact hend
    have hres := ih (seen ++ [t]) (simStep G d powers pick st t)
      htopo2 (nodup_shift hnodup) hdom2 hes2 hav2
    refine ⟨fun x => ?_, hres.2.1, hres.2.2⟩
    rw [← List.singleton_append, ← List.append_assoc]
    exact hres.1 x


/-! ## Well-formedness consequences and duration lemmas -/

theorem topoFromB_self_not_pred (pr : ℕ → List ℕ) :
    ∀ (l seen : List ℕ), topoFromB pr seen l = true → (seen ++ l).Nodup →
      ∀ q ∈ l, q ∉ pr q := by
  intro l
  induction l with
  | nil => intro seen _ _ q hq; cases hq
  | cons t rest ih =>
    intro seen htopo hnodup q hq
    obtain ⟨hpred, htopo2⟩ := topoFromB_cons htopo
    rcases List.mem_cons.mp hq with h | h
    · subst h
      intro hmem
      exact not_mem_of_nodup_middle hnodup (hpred _ hmem)
    · exact ih (seen ++ [t]) htopo2 (nodup_shift hnodup) q h

theorem wf_esBound {G : TaskGraph} (h : WFGraph G) (d : ℕ → ℚ) :
    ∀ x, esFold G d x ≤ esBound G d x := by
  obtain ⟨h1, h2, h3⟩ := h
  refine esFold_le_esBound G d h3 ?_
  intro q hq hmem
  exact topoFromB_self_not_pred G.pred G.tasks [] h2 (by simpa using h1) q hq
    (h3 q hq q hmem)

theorem evalDuration_nonneg (G : TaskGraph) (t : ℕ) : 0 ≤ evalDuration G t :=
  le_trans (by norm_num) (le_qmax_left (1/10) ((G.execTime t).getD 10))

theorem cpTaskTime_nonneg (G : TaskGraph) (t : ℕ) : 0 ≤ cpTaskTime G t := by
  rw [cpTaskTime]
  cases G.execTime t with
  | some e => exact le_trans (by norm_num) (le_qmax_left _ _)
  | none => exact le_trans (by norm_num) (le_qmax_left _ _)

theorem cpTaskTime_eq_evalDuration {G : TaskGraph} {t : ℕ} {e : ℚ}
    (h : G.execTime t = some e) : cpTaskTime G t = evalDuration G t := by
  rw [cpTaskTime, evalDuration, h]
  rfl

theorem normalize_tasks (G : TaskGraph) :
    (normalize_execution_times G).tasks = G.tasks := rfl

theorem normalize_pred (G : TaskGraph) :
    (normalize_execution_times G).pred = G.pred := rfl

theorem normalize_succ (G : TaskGraph) :
    (normalize_execution_times G).succ = G.succ := rfl

theorem normalize_execTime (G : TaskGraph) (t : ℕ) :
    (normalize_execution_times G).execTime t =
      if t ∈ G.tasks then
        match G.execTime t with
        | some e => if e < 1/10 then some (1/10) else some e
        | none => none
      else G.execTime t := rfl

theorem fcfsDuration_normalize (G : TaskGraph) (t : ℕ) :
    fcfsDuration (normalize_execution_times G) t = evalDuration G t := by
  rw [fcfsDuration, evalDuration, normalize_execTime]
  by_cases ht : t ∈ G.tasks
  · rw [if_pos ht]
    cases h : G.execTime t with
    | none => rfl
    | some e =>
      show qmax (1/10) ((if e < 1/10 then some (1/10 : ℚ) else some e).getD 10) =
        qmax (1/10) ((some e).getD 10)
      by_cases he : e < 1/10
      · rw [if_pos he]
        simp only [Option.getD_some, qmax]
        rw [if_neg (lt_irrefl _), if_neg (by linarith)]
      · rw [if_neg he]
  · rw [if_neg ht]

theorem fcfsDuration_nonneg (G : TaskGraph) (t : ℕ) : 0 ≤ fcfsDuration G t :=
  le_trans (by norm_num) (le_qmax_left (1/10) ((G.execTime t).getD 10))

/-! ## HEFT invariants -/

theorem heftComm_nonneg {G : TaskGraph} {avg : ℚ} (havg : 0 ≤ avg)
    (hc : ∀ p t c, G.comm p t = some c → 0 ≤ c) (p t : ℕ) :
    0 ≤ heftComm avg G p t := by
  rw [heftComm]
  cases h : G.comm p t with
  | some c => exact div_nonneg (hc p t c h) havg
  | none => exact le_refl 0

theorem heftSteps_none (G : TaskGraph) (avg : ℚ) (n : ℕ) :
    ∀ l : List ℕ, l.foldl (heftStep G avg n) none = none := by
  intro l
  induction l with
  | nil => rfl
  | cons t rest ih => exact ih

theorem optEnds_mem (entries : ℕ → Option SchedEntry) (commTo : ℕ → ℚ) :
    ∀ (preds : List ℕ) (vs : List ℚ), optEnds entries commTo preds = some vs →
      ∀ p ∈ preds, ∃ ep, entries p = some ep ∧ (ep.end_time + commTo p) ∈ vs := by
  intro preds
  induction preds with
  | nil => intro vs _ p hp; cases hp
  | cons q qs ih =>
    intro vs hvs p hp
    rw [optEnds] at hvs
    cases hq : entries q with
    | none => rw [hq] at hvs; cases hvs
    | some eq2 =>
      cases hrest : optEnds entries commTo qs with
      | none => rw [hq, hrest] at hvs; cases hvs
      | some rest =>
        rw [hq, hrest] at hvs
        injection hvs with hvs2
        rcases List.mem_cons.mp hp with h | h
        · subst h
          exact ⟨eq2, hq, by rw [← hvs2]; exact List.mem_cons_self _ _⟩
        · obtain ⟨ep, hep, hmem⟩ := ih rest hrest p h
          exact ⟨ep, hep, by rw [← hvs2]; exact List.mem_cons_of_mem _ hmem⟩

theorem heftReady_spec {entries : ℕ → Option SchedEntry} {commTo : ℕ → ℚ}
    {preds : List ℕ} {r : ℚ}
    (h : heftReady entries commTo preds = some r) :
    ∀ p ∈ preds, ∃ ep, entries p = some ep ∧ ep.end_time + commTo p ≤ r := by
  intro p hp
  rw [heftReady] at h
  cases hends : optEnds entries commTo preds with
  | none => rw [hends] at h; cases h
  | some vs =>
    rw [hends] at h
    obtain ⟨ep, hep, hmem⟩ := optEnds_mem entries commTo preds vs hends p hp
    refine ⟨ep, hep, ?_⟩
    cases vs with
    | nil => cases hmem
    | cons v vrest =>
      injection h with h2
      rw [← h2]
      exact le_listMax_of_mem hmem

theorem heftStep_some (G : TaskGraph) (avg : ℚ) (n : ℕ) (st : SimSt) (t : ℕ) :
    heftStep G avg n (some st) t =
      match heftReady st.entries (fun p => heftComm avg G p t) (G.pred t) with
      | none => none
      | some ready =>
        some { avail := fun i => if i = argminRange n (fun i => qmax ready (st.avail i)) then
                 qmax ready (st.avail (argminRange n (fun i => qmax ready (st.avail i)))) + heftCost avg G t
               else st.avail i
               denergy := st.denergy
               entries := fun x => if x = t then
                 some ⟨argminRange n (fun i => qmax ready (st.avail i)),
                   qmax ready (st.avail (argminRange n (fun i => qmax ready (st.avail i)))),
                   qmax ready (st.avail (argminRange n (fun i => qmax ready (st.avail i)))) + heftCost avg G t⟩
                 else st.entries x } := rfl

theorem heftSteps_precedence (G : TaskGraph) (avg : ℚ) (n : ℕ)
    (hcomm : ∀ p t, 0 ≤ heftComm avg G p t) :
    ∀ (l processed : List ℕ) (st : SimSt),
      (processed ++ l).Nodup →
      (∀ x, (∃ en, st.entries x = some en) ↔ x ∈ processed) →
      Prec G st.entries →
      ∀ st2, l.foldl (heftStep G avg n) (some st) = some st2 →
        (∀ x, (∃ en, st2.entries x = some en) ↔ x ∈ processed ++ l) ∧
        Prec G st2.entries := by
  intro l
  induction l with
  | nil =>
    intro processed st _ hdom hprec st2 hrun
    injection hrun with h
    subst h
    exact ⟨fun x => by rw [List.append_nil]; exact hdom x, hprec⟩
  | cons t rest ih =>
    intro processed st hnodup hdom hprec st2 hrun
    have htpro : t ∉ processed := not_mem_of_nodup_middle hnodup
    rw [List.foldl_cons, heftStep_some] at hrun
    cases hready : heftReady st.entries (fun p => heftComm avg G p t) (G.pred t) with
    | none =>
      rw [hready] at hrun
      rw [heftSteps_none] at hrun
      cases hrun
    | some ready =>
      rw [hready] at hrun
      set node := argminRange n (fun i => qmax ready (st.avail i)) with hnode
      set start := qmax ready (st.avail node) with hstart
      set st1 : SimSt :=
        { avail := fun i => if i = node then start + heftCost avg G t else st.avail i
          denergy := st.denergy
          entries := fun x => if x = t then
            some ⟨node, start, start + heftCost avg G t⟩ else st.entries x } with hst1
      have hdom2 : ∀ x, (∃ en, st1.entries x = some en) ↔ x ∈ processed ++ [t] := by
        intro x
        rw [hst1]
        by_cases hx : x = t
        · subst hx; simp
        · simp only [if_neg hx]
          simp only [List.mem_append, List.mem_singleton, hx, or_false]
          exact hdom x
      have hprec2 : Prec G st1.entries := by
        intro x en hen p hp
        rw [hst1] at hen
        simp only at hen
        by_cases hx : x = t
        · subst hx
          rw [if_pos rfl] at hen
          injection hen with hen2
          obtain ⟨ep, hep, hle⟩ := heftReady_spec hready p hp
          have hpx : p ≠ x := by
            intro h
            rw [h] at hep
            exact htpro ((hdom x).mp ⟨ep, hep⟩)
          refine ⟨ep, ?_, ?_⟩
          · rw [hst1]; simp only [if_neg hpx]; exact hep
          · rw [← hen2]
            have h1 : ep.end_time ≤ ready := by
              have := hcomm p x
              linarith
            exact le_trans h1 (le_qmax_left _ _)
        · rw [if_neg hx] at hen
          obtain ⟨ep, hpe, hle⟩ := hprec x en hen p hp
          have hppro : p ∈ processed := (hdom p).mp ⟨ep, hpe⟩
          have hpt : p ≠ t := fun h => htpro (h ▸ hppro)
          refine ⟨ep, ?_, hle⟩
          rw [hst1]; simp only [if_neg hpt]; exact hpe
      have hres := ih (processed ++ [t]) st1 (nodup_shift hnodup) hdom2 hprec2 st2 hrun
      refine ⟨fun x => ?_, hres.2⟩
      rw [← List.singleton_append, ← List.append_assoc]
      exact hres.1 x


/-! ## Stable sort permutation -/

theorem insertDesc_perm (key : ℕ → ℚ) (x : ℕ) :
    ∀ l : List ℕ, List.Perm (insertDesc key x l) (x :: l) := by
  intro l
  induction l with
  | nil => exact List.Perm.refl [x]
  | cons y ys ih =>
    rw [insertDesc]
    by_cases h : key x ≤ key y
    · rw [if_pos h]
      exact List.Perm.trans (List.Perm.cons y ih) (List.Perm.swap x y ys)
    · rw [if_neg h]

theorem sortDesc_perm (key : ℕ → ℚ) (l : List ℕ) : List.Perm (sortDesc key l) l := by
  have main : ∀ (l2 acc : List ℕ),
      List.Perm (l2.foldl (fun acc x => insertDesc key x acc) acc) (acc ++ l2) := by
    intro l2
    induction l2 with
    | nil => intro acc; simp
    | cons x xs ih =>
      intro acc
      refine List.Perm.trans (ih (insertDesc key x acc)) ?_
      refine List.Perm.trans (List.Perm.append_right xs (insertDesc_perm key x acc)) ?_
      exact (List.perm_middle).symm
  simpa using main l []

theorem heftOrder_perm (G : TaskGraph) (avg : ℚ) : List.Perm (heftOrder G avg) G.tasks :=
  sortDesc_perm (compute_upward_rank G avg) G.tasks

/-! ## Claim theorems: precedence, energy, durations, and the concrete runs -/

/-- Claim C6: for every well-formed DAG, every schedule produced by FCFS,
by the QIPSO schedule evaluator on any total assignment, and by HEFT
(whenever HEFT returns a schedule; with nonnegative communication costs)
satisfies the precedence invariant `start_time(t) ≥ end_time(p)` for
every predecessor `p` of every task `t`. -/
theorem schedulers_respect_precedence (G : TaskGraph) (hwf : WFGraph G) :
    (∀ n : ℕ, Prec G (schedule_fcfs G n).schedule) ∧
    (∀ (n : ℕ) (A : ℕ → ℕ), Prec G (evalSim G n A).entries) ∧
    (∀ (avg : ℚ) (n : ℕ) (st : SimSt), 0 ≤ avg →
      (∀ p t c, G.comm p t = some c → 0 ≤ c) →
      HEFT_schedule G avg n = some st → Prec G st.entries) := by
  obtain ⟨h1, h2, h3⟩ := hwf
  refine ⟨?_, ?_, ?_⟩
  · intro n
    have hres := simSteps_precedence (normalize_execution_times G)
      (fcfsDuration (normalize_execution_times G)) (nodePowers n)
      (fun st _ => argminRange n st.avail) G.tasks [] initSimSt
      h2 (by simpa using h1) (fun x => by simp [initSimSt]) (fun x en hen => nomatch hen)
    exact hres.2
  · intro n A
    have hres := simSteps_precedence G (evalDuration G) (nodePowers n)
      (fun _ t => A t) G.tasks [] initSimSt
      h2 (by simpa using h1) (fun x => by simp [initSimSt]) (fun x en hen => nomatch hen)
    exact hres.2
  · intro avg n st havg hc hrun
    have hnodup : ([] ++ heftOrder G avg).Nodup := by
      simpa using ((heftOrder_perm G avg).nodup_iff).mpr h1
    have hres := heftSteps_precedence G avg n (heftComm_nonneg havg hc)
      (heftOrder G avg) [] initSimSt hnodup
      (fun x => by simp [initSimSt]) (fun x en hen => nomatch hen) st hrun
    exact hres.2

/-- Witness for C6: in the FCFS schedule of the diamond DAG, task D
(task 3) starts at time 2, no earlier than its predecessor B (task 1)
ends. -/
theorem schedulers_respect_precedence_witness :
    ∃ ep, (schedule_fcfs Gdiamond 2).schedule 1 = some ep ∧ ep.end_time ≤ (2 : ℚ) :=
  (schedulers_respect_precedence Gdiamond ⟨by decide, by decide, by decide⟩).1 2 3 ⟨0, 2, 3⟩
    (by decide) 1 (by decide)

/-- Claim C5, counterexample: on the diamond DAG the claim puts B on
node 0 and C on node 1; FCFS picks the node with the smallest available
time, which after A occupies node 0 is node 1, so B goes to node 1 and C
to node 0. -/
theorem fcfs_diamond_not_as_claimed :
    ¬ (((schedule_fcfs Gdiamond 2).schedule 1).map (fun en => en.assigned_node) = some 0 ∧
       ((schedule_fcfs Gdiamond 2).schedule 2).map (fun en => en.assigned_node) = some 1) := by
  decide

/-- Claim C5, amended: FCFS schedules A on node 0 over [0,1]; B and C
become ready at time 1 and are assigned to node 1 and node 0
respectively (node 1 has the smaller available time when B is placed);
D becomes ready at time 2 and runs on node 0 over [2,3]; the makespan
is 3. -/
theorem fcfs_diamond_schedule :
    (schedule_fcfs Gdiamond 2).schedule 0 = some ⟨0, 0, 1⟩ ∧
    (schedule_fcfs Gdiamond 2).schedule 1 = some ⟨1, 1, 2⟩ ∧
    (schedule_fcfs Gdiamond 2).schedule 2 = some ⟨0, 1, 2⟩ ∧
    (schedule_fcfs Gdiamond 2).schedule 3 = some ⟨0, 2, 3⟩ ∧
    (schedule_fcfs Gdiamond 2).makespan = 3 := by
  refine ⟨by decide, by decide, by decide, by decide, by decide⟩

/-- Claim C8, counterexample: on the zero-task graph the Critical Path
Analyzer raises (the fallback indexes the empty task list), modelled as
`none`. -/
theorem critical_path_empty_graph_raises : find_critical_path Gempty = none := by
  decide

/-- Claim C8, amended: on every graph with at least one task,
`find_critical_path` returns normally and its critical-path list is
nonempty (falling back to the first topological task when no task meets
the tolerance). -/
theorem critical_path_total_on_nonempty (G : TaskGraph) (h : G.tasks ≠ []) :
    ∃ cp cl, find_critical_path G = some (cp, cl) ∧ cp ≠ [] := by
  rcases hG : G.tasks with _ | ⟨t0, rest⟩
  · exact absurd hG h
  · simp only [find_critical_path, hG]
    refine ⟨_, _, rfl, ?_⟩
    split_ifs with hc
    · simp
    · exact hc

/-- Witness for C8 at the one-task graph. -/
theorem critical_path_total_on_nonempty_witness :
    ∃ cp cl, find_critical_path G1 = some (cp, cl) ∧ cp ≠ [] :=
  critical_path_total_on_nonempty G1 (by decide)

/-- Claim C9, counterexample: `schedule_fcfs` calls
`normalize_execution_times`, which overwrites a stored `exec_time`
below the 0.1 floor, so the input graph is mutated. -/
theorem fcfs_mutates_small_exec_times :
    (fcfsGraphAfter Gsmall).execTime 0 ≠ Gsmall.execTime 0 := by decide

/-- Claim C9, amended: a `schedule_fcfs` call leaves the input graph
unchanged exactly on the graphs whose stored execution times all reach
the 0.1 floor; the only mutation is the normalisation rewrite of
sub-floor execution times. -/
theorem fcfs_graph_unchanged_of_floor (G : TaskGraph)
    (h : ∀ t ∈ G.tasks, ∀ e, G.execTime t = some e → 1/10 ≤ e) :
    fcfsGraphAfter G = G := by
  rw [fcfsGraphAfter]
  have hfun : (normalize_execution_times G).execTime = G.execTime := by
    funext t
    rw [normalize_execTime]
    by_cases ht : t ∈ G.tasks
    · rw [if_pos ht]
      cases he : G.execTime t with
      | none => rfl
      | some e =>
        have h1 := h t ht e he
        show (if e < 1/10 then some (1/10 : ℚ) else some e) = some e
        rw [if_neg (not_lt.mpr h1)]
    · rw [if_neg ht]
  cases G with
  | mk tasks pred succ execTime compCost comm =>
    simpa [normalize_execution_times] using hfun

/-- Witness for C9: the single-task graph with execution time 10 is left
untouched by FCFS. -/
theorem fcfs_graph_unchanged_of_floor_witness : fcfsGraphAfter G1 = G1 :=
  fcfs_graph_unchanged_of_floor G1 (by
    intro t ht e he
    have ht0 : t = 0 := by simpa [G1] using ht
    subst ht0
    have h10 : (10 : ℚ) = e := by simpa [G1] using he
    rw [← h10]; norm_num)

/-- Claim C10: both duration derivations compute `max(0.1, exec_time)`
when `exec_time` is present; without it `find_critical_path` falls back
to `max(0.1, comp_cost/1000)` (10 when `comp_cost` is also absent) while
`evaluate_schedule` falls back to the constant 10; hence all per-task
durations agree under the precondition that every task defines
`exec_time`, and they disagree on a task carrying only `comp_cost`
(50 against 10 on `Gcomp`). -/
theorem duration_derivations_agree :
    (∀ (G : TaskGraph) (t : ℕ) (e : ℚ), G.execTime t = some e →
      cpTaskTime G t = qmax (1/10) e ∧ evalDuration G t = qmax (1/10) e) ∧
    (∀ (G : TaskGraph) (t : ℕ), G.execTime t = none →
      cpTaskTime G t = qmax (1/10) (((G.compCost t).getD 10000) / 1000) ∧
      evalDuration G t = 10) ∧
    (∀ (G : TaskGraph) (t : ℕ), G.execTime t = none → G.compCost t = none →
      cpTaskTime G t = 10) ∧
    (∀ G : TaskGraph, (∀ t ∈ G.tasks, ∃ e, G.execTime t = some e) →
      ∀ t ∈ G.tasks, cpTaskTime G t = evalDuration G t) ∧
    (cpTaskTime Gcomp 0 = 50 ∧ evalDuration Gcomp 0 = 10) := by
  refine ⟨?_, ?_, ?_, ?_, by decide, by decide⟩
  · intro G t e h
    rw [cpTaskTime, evalDuration, h]
    exact ⟨rfl, rfl⟩
  · intro G t h
    rw [cpTaskTime, evalDuration, h]
    refine ⟨rfl, ?_⟩
    show qmax (1/10) 10 = 10
    decide
  · intro G t h hc
    rw [cpTaskTime, h, hc]
    decide
  · intro G hG t ht
    obtain ⟨e, he⟩ := hG t ht
    exact cpTaskTime_eq_evalDuration he

/-- Witness for C10 at concrete graphs. -/
theorem duration_derivations_agree_witness :
    cpTaskTime G1 0 = qmax (1/10) 10 ∧
    evalDuration Gempty 0 = 10 ∧
    cpTaskTime Gempty 0 = 10 ∧
    cpTaskTime G1 0 = evalDuration G1 0 :=
  ⟨(duration_derivations_agree.1 G1 0 10 (by decide)).1,
   (duration_derivations_agree.2.1 Gempty 0 (by decide)).2,
   duration_derivations_agree.2.2.1 Gempty 0 (by decide) (by decide),
   duration_derivations_agree.2.2.2.1 G1
     (by
       intro t ht
       have ht0 : t = 0 := by simpa [G1] using ht
       subst ht0
       exact ⟨10, by decide⟩) 0 (by decide)⟩

/-- Claim C7, counterexample: on the one-task graph, HEFT emits energy
10 while the recomputation from the stored schedule tuples gives 1/100:
the emitted value carries an extra factor `avg_comp_cost = 1000`. -/
theorem heft_energy_scaled_mismatch :
    heftRecomputedEnergy G1 1000 4 = 1/100 ∧ heftEnergy G1 1000 4 = 10 ∧
    ¬ ((10 : ℚ) = 1/100) := by
  refine ⟨by decide, by decide, by decide⟩

/-- Claim C7, amended: for FCFS the emitted energy equals the
recomputation from the stored per-task tuples (it is produced by exactly
that sum); for HEFT the emitted energy is `avg_comp_cost` times the
recomputation. -/
theorem energy_recomputation :
    (∀ (G : TaskGraph) (n : ℕ), (schedule_fcfs G n).energy =
      calculate_energy_consumption G.tasks (schedule_fcfs G n).schedule (nodePowers n)) ∧
    (∀ (G : TaskGraph) (avg : ℚ) (n : ℕ),
      heftEnergy G avg n = avg * heftRecomputedEnergy G avg n) := by
  constructor
  · intro G n
    rfl
  · intro G avg n
    rw [heftEnergy, heftRecomputedEnergy]
    cases h : HEFT_schedule G avg n with
    | none => rw [mul_zero]
    | some st =>
      rw [mul_comm]
      rfl

/-- Claim C3, counterexample: a task with the negative duration -5 is
silently clamped to the 0.1 floor; both the evaluator and FCFS return a
complete schedule instead of failing. -/
theorem negative_duration_schedules_anyway :
    Gneg.execTime 0 = some (-5) ∧
    (evalSim Gneg 1 (fun _ => 0)).entries 0 = some ⟨0, 0, 1/10⟩ ∧
    evaluate_schedule Gneg 1 (fun _ => 0) = (1/10, 1/10) ∧
    (schedule_fcfs Gneg 1).makespan = 1/10 := by
  refine ⟨by decide, by decide, by decide, by decide⟩

theorem simSteps_exists_entry (G : TaskGraph) (d : ℕ → ℚ) (powers : List ℚ)
    (pick : SimSt → ℕ → ℕ) :
    ∀ (l : List ℕ) (st : SimSt) (x : ℕ),
      (x ∈ l ∨ ∃ en, st.entries x = some en) →
      ∃ en, (simSteps G d powers pick st l).entries x = some en := by
  intro l
  induction l with
  | nil =>
    intro st x hx
    rcases hx with h | h
    · cases h
    · exact h
  | cons t rest ih =>
    intro st x hx
    rw [simSteps_cons]
    refine ih (simStep G d powers pick st t) x ?_
    by_cases hxt : x = t
    · right
      rw [simStep_entries, if_pos hxt]
      exact ⟨_, rfl⟩
    · rcases hx with h | h
      · rcases List.mem_cons.mp h with h2 | h2
        · exact absurd h2 hxt
        · exact Or.inl h2
      · right
        rw [simStep_entries, if_neg hxt]
        exact h

theorem simSteps_entry_duration (G : TaskGraph) (d : ℕ → ℚ) (powers : List ℚ)
    (pick : SimSt → ℕ → ℕ) :
    ∀ (l : List ℕ) (st : SimSt), EntryDur d st.entries →
      EntryDur d (simSteps G d powers pick st l).entries := by
  intro l
  induction l with
  | nil => intro st h; exact h
  | cons t rest ih =>
    intro st h
    rw [simSteps_cons]
    refine ih (simStep G d powers pick st t) ?_
    intro x en hen
    rw [simStep_entries] at hen
    by_cases hxt : x = t
    · rw [if_pos hxt] at hen
      injection hen with hen2
      rw [← hen2, hxt]
      show qmax _ _ + d t - qmax _ _ = d t
      ring
    · rw [if_neg hxt] at hen
      exact h x en hen

/-- Claim C3, amended: negative (and any sub-floor) durations are
silently clamped to the documented 0.1 epsilon floor, never rejected:
both the QIPSO evaluator and FCFS always produce a complete schedule in
which every task occupies exactly `max(0.1, exec_time or 10)` time; no
`InvalidDuration` error exists in the code. -/
theorem durations_clamped_to_floor :
    (∀ (G : TaskGraph) (n : ℕ) (A : ℕ → ℕ) (t : ℕ), t ∈ G.tasks →
      ∃ en, (evalSim G n A).entries t = some en ∧
        en.end_time - en.start_time = evalDuration G t) ∧
    (∀ (G : TaskGraph) (n : ℕ) (t : ℕ), t ∈ G.tasks →
      ∃ en, (schedule_fcfs G n).schedule t = some en ∧
        en.end_time - en.start_time = evalDuration G t) ∧
    (∀ (G : TaskGraph) (t : ℕ) (e : ℚ), G.execTime t = some e → e ≤ 1/10 →
      evalDuration G t = 1/10) := by
  refine ⟨?_, ?_, ?_⟩
  · intro G n A t ht
    obtain ⟨en, hen⟩ := simSteps_exists_entry G (evalDuration G) (nodePowers n)
      (fun _ t => A t) G.tasks initSimSt t (Or.inl ht)
    refine ⟨en, hen, ?_⟩
    exact simSteps_entry_duration G (evalDuration G) (nodePowers n) (fun _ t => A t)
      G.tasks initSimSt (fun x en2 hen2 => nomatch hen2) t en hen
  · intro G n t ht
    obtain ⟨en, hen⟩ := simSteps_exists_entry (normalize_execution_times G)
      (fcfsDuration (normalize_execution_times G)) (nodePowers n)
      (fun st _ => argminRange n st.avail) G.tasks initSimSt t (Or.inl ht)
    refine ⟨en, hen, ?_⟩
    rw [← fcfsDuration_normalize G t]
    exact simSteps_entry_duration (normalize_execution_times G)
      (fcfsDuration (normalize_execution_times G)) (nodePowers n)
      (fun st _ => argminRange n st.avail)
      G.tasks initSimSt (fun x en2 hen2 => nomatch hen2) t en hen
  · intro G t e h he
    rw [evalDuration, h]
    show qmax (1/10) e = 1/10
    rw [qmax, if_neg (not_lt.mpr he)]

/-- Witness for C3 at the graph with a negative duration. -/
theorem durations_clamped_to_floor_witness :
    (∃ en, (evalSim Gneg 1 (fun _ => 0)).entries 0 = some en ∧
      en.end_time - en.start_time = evalDuration Gneg 0) ∧
    evalDuration Gneg 0 = 1/10 :=
  ⟨durations_clamped_to_floor.1 Gneg 1 (fun _ => 0) 0 (by decide),
   durations_clamped_to_floor.2.2 Gneg 0 (-5) (by decide) (by norm_num)⟩


/-! ## Claim C4: constructor validation and cycle rejection -/

theorem chain_mem_pred (edges : List (ℕ × ℕ)) :
    ∀ (rest : List ℕ) (v : ℕ), List.Chain (fun a b => (a, b) ∈ edges) v rest →
      ∀ b ∈ rest, ∃ a ∈ v :: rest, (a, b) ∈ edges := by
  intro rest
  induction rest with
  | nil => intro v _ b hb; cases hb
  | cons c cs ih =>
    intro v hchain b hb
    rcases List.chain_cons.mp hchain with ⟨hvc, hchain2⟩
    rcases List.mem_cons.mp hb with h | h
    · subst h
      exact ⟨v, List.mem_cons_self v _, hvc⟩
    · obtain ⟨a, ha, hab⟩ := ih c hchain2 b h
      exact ⟨a, List.mem_cons_of_mem v ha, hab⟩

theorem cycle_in_neighbor {edges : List (ℕ × ℕ)} {l : List ℕ}
    (h : IsCycleList edges l) : ∀ c ∈ l, ∃ c2 ∈ l, (c2, c) ∈ edges := by
  cases l with
  | nil => exact h.elim
  | cons v rest =>
    obtain ⟨hchain, hback⟩ := h
    intro c hc
    rcases List.mem_cons.mp hc with h1 | h1
    · subst h1
      exact ⟨rest.getLastD c, List.getLastD_mem_cons rest c, hback⟩
    · obtain ⟨a, ha, hab⟩ := chain_mem_pred edges rest v hchain c h1
      exact ⟨a, ha, hab⟩

theorem kahnAux_stuck (edges : List (ℕ × ℕ)) (C : List ℕ) (hCne : C ≠ [])
    (hC : ∀ c ∈ C, ∃ c2 ∈ C, (c2, c) ∈ edges) :
    ∀ (fuel : ℕ) (acc remaining : List ℕ), (∀ c ∈ C, c ∈ remaining) →
      kahnAux edges fuel acc remaining = none := by
  have hCnonempty : ∀ remaining : List ℕ, (∀ c ∈ C, c ∈ remaining) → remaining ≠ [] := by
    intro remaining hsub hnil
    cases C with
    | nil => exact hCne rfl
    | cons c cs =>
      rw [hnil] at hsub
      exact List.not_mem_nil c (hsub c (List.mem_cons_self c cs))
  intro fuel
  induction fuel with
  | zero =>
    intro acc remaining hsub
    cases remaining with
    | nil => exact absurd rfl (hCnonempty [] hsub)
    | cons v vs => rfl
  | succ fuel ih =>
    intro acc remaining hsub
    cases remaining with
    | nil => exact absurd rfl (hCnonempty [] hsub)
    | cons v vs =>
      rw [kahnAux]
      by_cases hready : (v :: vs).filter (noIncoming edges (v :: vs)) = []
      · rw [if_pos hready]
      · rw [if_neg hready]
        refine ih (acc ++ (v :: vs).filter (noIncoming edges (v :: vs))) _ ?_
        intro c hc
        have hcr : c ∈ v :: vs := hsub c hc
        have hnotready : c ∉ (v :: vs).filter (noIncoming edges (v :: vs)) := by
          intro hcready
          have hni := (List.mem_filter.mp hcready).2
          obtain ⟨c2, hc2, hedge⟩ := hC c hc
          have hc2r : c2 ∈ v :: vs := hsub c2 hc2
          rw [noIncoming, List.all_eq_true] at hni
          have hcon := hni c2 hc2r
          simp [hedge] at hcon
        refine List.mem_filter.mpr ⟨hcr, ?_⟩
        simp [hnotready]

theorem topoSort_none_of_cycle {g : RawGraph} {l : List ℕ}
    (hwf : ∀ e ∈ g.edges, e.1 ∈ g.nodes ∧ e.2 ∈ g.nodes)
    (hcyc : IsCycleList g.edges l) : topoSortList g = none := by
  have hne : l ≠ [] := by
    cases l with
    | nil => exact hcyc.elim
    | cons v rest => exact List.cons_ne_nil v rest
  have hC := cycle_in_neighbor hcyc
  refine kahnAux_stuck g.edges l hne hC g.nodes.length [] g.nodes ?_
  intro c hc
  obtain ⟨c2, _, hedge⟩ := hC c hc
  exact (hwf (c2, c) hedge).2

/-- Claim C4, counterexample: constructing the optimizer with
`num_particles = 0` and `max_iter = 0` succeeds (the constructor never
validates either count), refuting that construction fails whenever the
particle count or max-iteration count is not positive. -/
theorem qipso_init_accepts_zero_particles :
    qipsoInit ⟨[0], []⟩ 1 0 0 0 ≠ none := by decide

/-- Claim C4, amended: construction fails at construction time whenever
`num_edge_nodes < 1`, the mutation probability lies outside [0,1], or
the graph contains a cycle; the particle count and max-iteration count
are never validated (zero particles and zero or negative max_iter are
accepted; only a negative particle count fails, incidentally, in the
numpy shape check). -/
theorem qipso_init_validation :
    (∀ (g : RawGraph) (ne np mi : ℤ) (mp : ℚ), ne < 1 →
      qipsoInit g ne np mi mp = none) ∧
    (∀ (g : RawGraph) (ne np mi : ℤ) (mp : ℚ), (mp < 0 ∨ 1 < mp) →
      qipsoInit g ne np mi mp = none) ∧
    (∀ (g : RawGraph) (ne np mi : ℤ) (mp : ℚ) (l : List ℕ),
      (∀ e ∈ g.edges, e.1 ∈ g.nodes ∧ e.2 ∈ g.nodes) →
      IsCycleList g.edges l → qipsoInit g ne np mi mp = none) := by
  refine ⟨?_, ?_, ?_⟩
  · intro g ne np mi mp h
    rw [qipsoInit, if_pos h]
  · intro g ne np mi mp h
    rw [qipsoInit]
    by_cases h1 : ne < 1
    · rw [if_pos h1]
    · rw [if_neg h1, if_pos (by exact h.imp id (fun h2 => h2))]
  · intro g ne np mi mp l hwf hcyc
    rw [qipsoInit]
    by_cases h1 : ne < 1
    · rw [if_pos h1]
    · rw [if_neg h1]
      by_cases h2 : mp < 0 ∨ mp > 1
      · rw [if_pos h2]
      · rw [if_neg h2, topoSort_none_of_cycle hwf hcyc]

/-- Witness for C4: each rejection fires at a concrete input (zero edge
nodes; mutation probability 2; a self-loop graph). -/
theorem qipso_init_validation_witness :
    qipsoInit ⟨[0], []⟩ 0 1 1 (1/2) = none ∧
    qipsoInit ⟨[0], []⟩ 1 1 1 2 = none ∧
    qipsoInit ⟨[0], [(0, 0)]⟩ 1 1 1 (1/2) = none :=
  ⟨qipso_init_validation.1 ⟨[0], []⟩ 0 1 1 (1/2) (by norm_num),
   qipso_init_validation.2.1 ⟨[0], []⟩ 1 1 1 2 (Or.inr (by norm_num)),
   qipso_init_validation.2.2 ⟨[0], [(0, 0)]⟩ 1 1 1 (1/2) [0] (by decide)
     ⟨List.Chain.nil, by decide⟩⟩


/-! ## Claim C2: the QIPSO termination condition -/

theorem check_convergence_iff (cl : ℚ) (st : QState) :
    check_convergence cl st = true ↔ ConvCond cl st := by
  rw [check_convergence, ConvCond]
  cases hg : st.gbScore with
  | none =>
    constructor
    · intro h; cases h
    · rintro (⟨g, hgeq, _⟩ | ⟨_, g, m, hgeq, _, _⟩) <;> cases hgeq
  | some g =>
    constructor
    · intro h
      rw [Bool.or_eq_true] at h
      rcases h with h1 | h2
      · exact Or.inl ⟨g, rfl, by rw [← qabs_eq_abs]; exact of_decide_eq_true h1⟩
      · rw [Bool.and_eq_true] at h2
        obtain ⟨hlen, hmin⟩ := h2
        refine Or.inr ⟨of_decide_eq_true hlen, ?_⟩
        cases hm : optListMin ((st.history.drop (st.history.length - 20)).map Prod.fst) with
        | none => rw [hm] at hmin; cases hmin
        | some m =>
          rw [hm] at hmin
          exact ⟨g, m, rfl, rfl, by rw [← qabs_eq_abs]; exact of_decide_eq_true hmin⟩
    · rintro (⟨g2, hg2, habs⟩ | ⟨hlen, g2, m, hg2, hm, habs⟩)
      · injection hg2 with hgg
        subst hgg
        rw [Bool.or_eq_true]
        exact Or.inl (decide_eq_true (by rw [qabs_eq_abs]; exact habs))
      · injection hg2 with hgg
        subst hgg
        rw [Bool.or_eq_true, Bool.and_eq_true]
        refine Or.inr ⟨decide_eq_true hlen, ?_⟩
        rw [hm]
        exact decide_eq_true (by rw [qabs_eq_abs]; exact habs)

theorem runFrom_converged_iff (G : TaskGraph) (nn np : ℕ) (cl : ℚ)
    (sampler : ℕ → ℕ → ℕ → ℕ) :
    ∀ (fuel i : ℕ),
      ((runFrom G nn np cl sampler i fuel (stateAfter G nn np sampler i)).1 =
        QStatus.converged ↔
      ∃ j < fuel, check_convergence cl (stateAfter G nn np sampler (i + j + 1)) = true) := by
  intro fuel
  induction fuel with
  | zero =>
    intro i
    constructor
    · intro h; cases h
    · rintro ⟨j, hj, _⟩; omega
  | succ fuel ih =>
    intro i
    rw [runFrom]
    have hstep : qIteration G nn np (sampler i) (stateAfter G nn np sampler i) =
        stateAfter G nn np sampler (i + 1) := rfl
    rw [hstep]
    by_cases hc : check_convergence cl (stateAfter G nn np sampler (i + 1)) = true
    · rw [if_pos hc]
      constructor
      · intro _
        refine ⟨0, by omega, ?_⟩
        rw [show i + 0 + 1 = i + 1 from by omega]
        exact hc
      · intro _; rfl
    · rw [if_neg hc]
      rw [ih (i + 1)]
      constructor
      · rintro ⟨j, hj, hcheck⟩
        refine ⟨j + 1, by omega, ?_⟩
        rw [show i + (j + 1) + 1 = i + 1 + j + 1 from by omega]
        exact hcheck
      · rintro ⟨j, hj, hcheck⟩
        cases j with
        | zero =>
          rw [show i + 0 + 1 = i + 1 from by omega] at hcheck
          exact absurd hcheck hc
        | succ j2 =>
          refine ⟨j2, by omega, ?_⟩
          rw [show i + 1 + j2 + 1 = i + (j2 + 1) + 1 from by omega]
          exact hcheck

/-- Claim C2: under any sampling oracle, the QIPSO iteration loop
terminates early in state CONVERGED exactly when some once-per-iteration
convergence check fires, which happens exactly when the global best
makespan is within 0.1 of the critical length, or more than 20 history
entries have been recorded and the minimum best makespan over the last
20 of them is within 0.1 of the current best (stagnation); in every
other case the loop runs all `max_iter` iterations and ends in
MAX_ITER_REACHED. -/
theorem qipso_convergence_iff (G : TaskGraph) (nn np max_iter : ℕ) (cl : ℚ)
    (sampler : ℕ → ℕ → ℕ → ℕ) :
    ((run_optimization G nn np max_iter cl sampler).1 = QStatus.converged ↔
      ∃ i < max_iter, ConvCond cl (stateAfter G nn np sampler (i + 1))) ∧
    ((run_optimization G nn np max_iter cl sampler).1 = QStatus.maxIterReached ↔
      ∀ i < max_iter, ¬ ConvCond cl (stateAfter G nn np sampler (i + 1))) := by
  have h1 := runFrom_converged_iff G nn np cl sampler max_iter 0
  simp only [Nat.zero_add] at h1
  have hconv : (run_optimization G nn np max_iter cl sampler).1 = QStatus.converged ↔
      ∃ i < max_iter, ConvCond cl (stateAfter G nn np sampler (i + 1)) := by
    rw [run_optimization]
    rw [show initQState np = stateAfter G nn np sampler 0 from rfl]
    rw [h1]
    constructor
    · rintro ⟨j, hj, hc⟩
      exact ⟨j, hj, (check_convergence_iff cl _).mp hc⟩
    · rintro ⟨j, hj, hc⟩
      exact ⟨j, hj, (check_convergence_iff cl _).mpr hc⟩
  refine ⟨hconv, ?_⟩
  have hdich : ∀ s : QStatus, s = QStatus.maxIterReached ↔ ¬ s = QStatus.converged := by
    intro s; cases s with
    | converged => constructor
                   · intro h; cases h
                   · intro h; exact absurd rfl h
    | maxIterReached => constructor
                        · intro _ h; cases h
                        · intro _; rfl
  rw [hdich, hconv]
  push_neg
  rfl


/-! ## Claim C1: lower bounds on makespans -/

theorem getLast?_some_of_ne_nil (l : List ℕ) (d0 : ℕ) (h : l ≠ []) :
    l.getLast? = some (l.getLastD d0) := by
  rw [List.getLastD_eq_getLast?]
  cases hl : l.getLast? with
  | none => exact absurd (List.getLast?_eq_none_iff.mp hl) h
  | some v => rfl

theorem qmax_mul_nonneg (c a b : ℚ) (hc : 0 ≤ c) :
    qmax (c * a) (c * b) = c * qmax a b := by
  rw [qmax_eq_max, qmax_eq_max]
  exact (mul_max_of_nonneg a b hc).symm

theorem esFold_smul (G : TaskGraph) (c : ℚ) (hc : 0 ≤ c) (d : ℕ → ℚ) :
    esFold G (fun t => c * d t) = fun x => c * esFold G d x := by
  have inner : ∀ (q : ℕ) (sl : List ℕ) (es : ℕ → ℚ),
      sl.foldl (esInnerStep (fun t => c * d t) q) (fun x => c * es x) =
        fun x => c * (sl.foldl (esInnerStep d q) es) x := by
    intro q sl
    induction sl with
    | nil => intro es; rfl
    | cons s ss ih =>
      intro es
      rw [List.foldl_cons, List.foldl_cons]
      have hstep : esInnerStep (fun t => c * d t) q (fun x => c * es x) s =
          fun x => c * (esInnerStep d q es s) x := by
        funext x
        rw [esInnerStep, esInnerStep]
        by_cases hx : x = s
        · rw [if_pos hx, if_pos hx, ← mul_add, qmax_mul_nonneg c _ _ hc]
        · rw [if_neg hx, if_neg hx]
      rw [hstep, ih (esInnerStep d q es s)]
  have outer : ∀ (l : List ℕ) (es : ℕ → ℚ),
      l.foldl (esOuterStep G (fun t => c * d t)) (fun x => c * es x) =
        fun x => c * (l.foldl (esOuterStep G d) es) x := by
    intro l
    induction l with
    | nil => intro es; rfl
    | cons q rest ih =>
      intro es
      rw [List.foldl_cons, List.foldl_cons]
      have hstep : esOuterStep G (fun t => c * d t) (fun x => c * es x) q =
          fun x => c * (esOuterStep G d es q) x := inner q (G.succ q) es
      rw [hstep, ih (esOuterStep G d es q)]
  have houter := outer G.tasks (fun _ => 0)
  have h0 : (fun x : ℕ => c * (fun _ : ℕ => (0 : ℚ)) x) = (fun _ : ℕ => (0 : ℚ)) := by
    funext x
    exact mul_zero c
  rw [h0] at houter
  exact houter

theorem simRun_makespan_ge (G : TaskGraph) (d : ℕ → ℚ) (powers : List ℚ)
    (pick : SimSt → ℕ → ℕ) (n : ℕ) (_hn : 0 < n)
    (hwfn : G.tasks.Nodup) (htopo : topoFromB G.pred [] G.tasks = true)
    (hd : ∀ x, 0 ≤ d x) (hpick : ∀ st t, pick st t < n)
    (hub : ∀ x, esFold G d x ≤ esBound G d x) :
    ∀ t ∈ G.tasks, esFold G d t + d t ≤
      listMax ((List.range n).map (simRun G d powers pick).avail) := by
  intro t ht
  have hres := simSteps_lower G d powers pick n hd hpick hub G.tasks [] initSimSt
    htopo (by simpa using hwfn) (fun x => by simp [initSimSt])
    (fun x en hen => nomatch hen) (fun x en hen => nomatch hen)
  obtain ⟨en, hen⟩ := (hres.1 t).mpr (by simpa using ht)
  have hes := hres.2.1 t en hen
  obtain ⟨hnode, hend⟩ := hres.2.2 t en hen
  refine le_trans hes (le_trans hend ?_)
  exact le_listMax_of_mem (List.mem_map_of_mem _ (List.mem_range.mpr hnode))


theorem heftSteps_lower (G : TaskGraph) (avg : ℚ) (n : ℕ) (hn : 0 < n)
    (hcomm : ∀ p t, 0 ≤ heftComm avg G p t)
    (hub : ∀ x, esFold G (heftCost avg G) x ≤ esBound G (heftCost avg G) x) :
    ∀ (l processed : List ℕ) (st : SimSt),
      (∀ x ∈ l, 0 ≤ heftCost avg G x) →
      (processed ++ l).Nodup →
      (∀ x, (∃ en, st.entries x = some en) ↔ x ∈ processed) →
      EsLB G (heftCost avg G) st.entries →
      AvailB n st.avail st.entries →
      (∀ i, 0 ≤ st.avail i) →
      (∀ x en, st.entries x = some en → 0 ≤ en.end_time) →
      ∀ st2, l.foldl (heftStep G avg n) (some st) = some st2 →
        (∀ x, (∃ en, st2.entries x = some en) ↔ x ∈ processed ++ l) ∧
        EsLB G (heftCost avg G) st2.entries ∧
        AvailB n st2.avail st2.entries := by
  intro l
  induction l with
  | nil =>
    intro processed st _ _ hdom hes hav _ _ st2 hrun
    injection hrun with h
    subst h
    exact ⟨fun x => by rw [List.append_nil]; exact hdom x, hes, hav⟩
  | cons t rest ih =>
    intro processed st hl hnodup hdom hes hav havn hen0 st2 hrun
    have htpro : t ∉ processed := not_mem_of_nodup_middle hnodup
    have hdt : 0 ≤ heftCost avg G t := hl t (List.mem_cons_self t rest)
    rw [List.foldl_cons, heftStep_some] at hrun
    cases hready : heftReady st.entries (fun p => heftComm avg G p t) (G.pred t) with
    | none =>
      rw [hready, heftSteps_none] at hrun
      cases hrun
    | some ready =>
      rw [hready] at hrun
      set node := argminRange n (fun i => qmax ready (st.avail i)) with hnodeeq
      have hnoden : node < n := argminRange_lt hn _
      set start := qmax ready (st.avail node) with hstarteq
      set st1 : SimSt :=
        { avail := fun i => if i = node then start + heftCost avg G t else st.avail i
          denergy := st.denergy
          entries := fun x => if x = t then
            some ⟨node, start, start + heftCost avg G t⟩ else st.entries x } with hst1
      have hentries : ∀ y, st1.entries y = if y = t then
          some ⟨node, start, start + heftCost avg G t⟩ else st.entries y := fun y => rfl
      have havail : ∀ i, st1.avail i =
          if i = node then start + heftCost avg G t else st.avail i := fun i => rfl
      have hr0 : 0 ≤ ready := by
        cases hpreds : G.pred t with
        | nil =>
          rw [hpreds] at hready
          have h00 : some (0 : ℚ) = some ready := hready
          injection h00 with h0
          rw [← h0]
        | cons p ps =>
          obtain ⟨ep, hep, hle⟩ := heftReady_spec hready p
            (by rw [hpreds]; exact List.mem_cons_self p ps)
          have h1 := hen0 p ep hep
          have h2 := hcomm p t
          linarith
      have hesb : esFold G (heftCost avg G) t ≤ ready := by
        refine le_trans (hub t) (qmax_le hr0 ?_)
        refine listMax_le hr0 ?_
        intro v hv
        obtain ⟨p, hp, rfl⟩ := List.mem_map.mp hv
        obtain ⟨ep, hep, hle⟩ := heftReady_spec hready p hp
        have h1 : esFold G (heftCost avg G) p + heftCost avg G p ≤ ep.end_time :=
          hes p ep hep
        have h2 := hcomm p t
        linarith
      have hstart0 : 0 ≤ start := le_trans hr0 (le_qmax_left _ _)
      have hdom2 : ∀ x, (∃ en, st1.entries x = some en) ↔ x ∈ processed ++ [t] := by
        intro x
        rw [hentries]
        by_cases hx : x = t
        · subst hx; simp
        · simp only [if_neg hx]
          simp only [List.mem_append, List.mem_singleton, hx, or_false]
          exact hdom x
      have hes2 : EsLB G (heftCost avg G) st1.entries := by
        intro x en hen
        rw [hentries] at hen
        by_cases hx : x = t
        · subst hx
          rw [if_pos rfl] at hen
          injection hen with hen2
          rw [← hen2]
          have h1 : esFold G (heftCost avg G) x ≤ start :=
            le_trans hesb (by rw [hstarteq]; exact le_qmax_left _ _)
          simpa using add_le_add_right h1 (heftCost avg G x)
        · rw [if_neg hx] at hen
          exact hes x en hen
      have hav2 : AvailB n st1.avail st1.entries := by
        intro x en hen
        rw [hentries] at hen
        by_cases hx : x = t
        · subst hx
          rw [if_pos rfl] at hen
          injection hen with hen2
          rw [← hen2]
          refine ⟨hnoden, ?_⟩
          show start + heftCost avg G x ≤ st1.avail node
          rw [havail node, if_pos rfl]
        · rw [if_neg hx] at hen
          obtain ⟨hxn, hxe⟩ := hav x en hen
          refine ⟨hxn, ?_⟩
          rw [havail]
          by_cases hno : en.assigned_node = node
          · rw [if_pos hno]
            have h1 : st.avail node ≤ start := by
              rw [hstarteq]; exact le_qmax_right _ _
            have h2 : en.end_time ≤ st.avail en.assigned_node := hxe
            rw [hno] at h2
            linarith
          · rw [if_neg hno]
            exact hxe
      have havn2 : ∀ i, 0 ≤ st1.avail i := by
        intro i
        rw [havail i]
        by_cases hi : i = node
        · rw [if_pos hi]
          linarith
        · rw [if_neg hi]
          exact havn i
      have hen02 : ∀ x en, st1.entries x = some en → 0 ≤ en.end_time := by
        intro x en hen
        rw [hentries] at hen
        by_cases hx : x = t
        · subst hx
          rw [if_pos rfl] at hen
          injection hen with hen2
          rw [← hen2]
          simpa using add_nonneg hstart0 hdt
        · rw [if_neg hx] at hen
          exact hen0 x en hen
      have hres := ih (processed ++ [t]) st1
        (fun x hx => hl x (List.mem_cons_of_mem t hx)) (nodup_shift hnodup)
        hdom2 hes2 hav2 havn2 hen02 st2 hrun
      refine ⟨fun x => ?_, hres.2.1, hres.2.2⟩
      rw [← List.singleton_append, ← List.append_assoc]
      exact hres.1 x

theorem heftMakespan_eq_some {G : TaskGraph} {avg : ℚ} {n : ℕ} {st : SimSt}
    (hrun : HEFT_schedule G avg n = some st) :
    heftMakespan G avg n =
      match (heftOrder G avg).filterMap
          (fun t => (st.entries t).map (fun en => en.end_time)) with
      | [] => 0
      | e :: es => (es.foldl qmax e) * avg := by
  rw [heftMakespan, hrun]

theorem heft_makespan_ge (G : TaskGraph) (hwf : WFGraph G) (avg : ℚ) (n : ℕ)
    (hn : 0 < n) (havg : 0 ≤ avg)
    (hcost : ∀ x ∈ G.tasks, 0 ≤ heftCost avg G x)
    (hcomm : ∀ p t, 0 ≤ heftComm avg G p t)
    (st : SimSt) (hrun : HEFT_schedule G avg n = some st) :
    ∀ t ∈ G.tasks, (esFold G (heftCost avg G) t + heftCost avg G t) * avg ≤
      heftMakespan G avg n := by
  intro t ht
  have hub := wf_esBound hwf (heftCost avg G)
  have hnodup : ([] ++ heftOrder G avg).Nodup := by
    simpa using ((heftOrder_perm G avg).nodup_iff).mpr hwf.1
  have hres := heftSteps_lower G avg n hn hcomm hub (heftOrder G avg) [] initSimSt
    (fun x hx => hcost x ((heftOrder_perm G avg).mem_iff.mp hx)) hnodup
    (fun x => by simp [initSimSt]) (fun x en hen => nomatch hen)
    (fun x en hen => nomatch hen) (fun i => le_refl 0)
    (fun x en hen => nomatch hen) st hrun
  have htorder : t ∈ heftOrder G avg := (heftOrder_perm G avg).mem_iff.mpr ht
  obtain ⟨en, hen⟩ := (hres.1 t).mpr (by simpa using htorder)
  have hesb := hres.2.1 t en hen
  have hmem : en.end_time ∈ (heftOrder G avg).filterMap
      (fun t2 => (st.entries t2).map (fun en2 => en2.end_time)) := by
    refine List.mem_filterMap.mpr ⟨t, htorder, ?_⟩
    rw [hen]
    rfl
  rw [heftMakespan_eq_some hrun]
  cases hends : (heftOrder G avg).filterMap
      (fun t2 => (st.entries t2).map (fun en2 => en2.end_time)) with
  | nil =>
    rw [hends] at hmem
    cases hmem
  | cons e es2 =>
    rw [hends] at hmem
    have hle : en.end_time ≤ listMax (e :: es2) := le_listMax_of_mem hmem
    calc (esFold G (heftCost avg G) t + heftCost avg G t) * avg
        ≤ en.end_time * avg := mul_le_mul_of_nonneg_right hesb havg
      _ ≤ listMax (e :: es2) * avg := mul_le_mul_of_nonneg_right hle havg
      _ = (es2.foldl qmax e) * avg := rfl


/-- Claim C1, counterexample: on the chain 0 → 1 with execution times 5
and 1, the critical length is 10 (the buggy formula adds the duration of
the fallback task 0 to the maximal earliest start), yet FCFS, the QIPSO
evaluator and HEFT all achieve makespan 6, far below
`critical_length - 1e-6`. -/
theorem critical_length_not_lower_bound :
    find_critical_path Gchain = some ([0], 10) ∧
    (schedule_fcfs Gchain 2).makespan = 6 ∧
    (evaluate_schedule Gchain 2 (fun _ => 0)).1 = 6 ∧
    heftMakespan Gchain 1000 4 = 6 ∧
    ¬ ((6 : ℚ) ≥ 10 - 1/1000000) := by
  refine ⟨by decide, by decide, by decide, by decide, by norm_num⟩

/-- Claim C1, amended: for every well-formed DAG in which every task
defines `exec_time`, the makespans of FCFS, of the QIPSO evaluator on
any valid total assignment, and of HEFT (under its own unit hypotheses:
positive `avg_comp_cost`, no `comp_cost` attributes, execution times at
the 0.1 floor, nonnegative communication costs, and a returned schedule)
are bounded below by `critical_length` minus the duration of the LAST
critical-path task, that is, by `max(earliest_start.values())`.  The
stated slack of only 1e-6 does not hold in general. -/
theorem makespan_ge_shifted_critical_length (G : TaskGraph) (hwf : WFGraph G)
    (hexec : ∀ t ∈ G.tasks, ∃ e, G.execTime t = some e)
    {cp : List ℕ} {cl : ℚ} (hcp : find_critical_path G = some (cp, cl)) :
    ∃ c, cp.getLast? = some c ∧
      (∀ n : ℕ, 0 < n → cl - cpTaskTime G c ≤ (schedule_fcfs G n).makespan) ∧
      (∀ (n : ℕ) (A : ℕ → ℕ), 0 < n → (∀ t, A t < n) →
        cl - cpTaskTime G c ≤ (evaluate_schedule G n A).1) ∧
      (∀ (avg : ℚ) (n : ℕ) (st : SimSt), 0 < avg → 0 < n →
        (∀ t ∈ G.tasks, G.compCost t = none) →
        (∀ t ∈ G.tasks, ∀ e, G.execTime t = some e → 1/10 ≤ e) →
        (∀ p t c2, G.comm p t = some c2 → 0 ≤ c2) →
        HEFT_schedule G avg n = some st →
        cl - cpTaskTime G c ≤ heftMakespan G avg n) := by
  rcases hG : G.tasks with _ | ⟨t0, rest⟩
  · simp only [find_critical_path, hG] at hcp
    exact Option.noConfusion hcp
  · simp only [find_critical_path, hG, Option.some.injEq, Prod.mk.injEq] at hcp
    obtain ⟨hcp1, hcp2⟩ := hcp
    set es := esFold G (cpTaskTime G) with hes
    set M := listMax ((t0 :: rest).map es) with hM
    have hcpne : cp ≠ [] := by
      rw [← hcp1]
      split_ifs with hc
      · simp
      · exact hc
    have hclM : cl - cpTaskTime G (cp.getLastD t0) = M := by
      rw [hcp1] at hcp2
      linarith
    have hMmem : M ∈ (t0 :: rest).map es := listMax_mem (by simp)
    obtain ⟨tstar, hts, htseq⟩ := List.mem_map.mp hMmem
    have htsG : tstar ∈ G.tasks := by rw [hG]; exact hts
    have hdur2 : ∀ t ∈ G.tasks, evalDuration G t = cpTaskTime G t := by
      intro t ht
      obtain ⟨e, he⟩ := hexec t ht
      exact (cpTaskTime_eq_evalDuration he).symm
    refine ⟨cp.getLastD t0, getLast?_some_of_ne_nil cp t0 hcpne, ?_, ?_, ?_⟩
    · intro n hn
      rw [hclM]
      have hdur : ∀ t ∈ G.tasks,
          fcfsDuration (normalize_execution_times G) t = cpTaskTime G t := by
        intro t ht
        rw [fcfsDuration_normalize]
        exact hdur2 t ht
      have hesc : esFold (normalize_execution_times G)
          (fcfsDuration (normalize_execution_times G)) = es := by
        have h1 := esFold_congr (normalize_execution_times G)
          (fcfsDuration (normalize_execution_times G)) (cpTaskTime G)
          (fun t ht => hdur t ht)
        exact h1.trans (hes.symm)
      have hge := simRun_makespan_ge (normalize_execution_times G)
        (fcfsDuration (normalize_execution_times G)) (nodePowers n)
        (fun st _ => argminRange n st.avail) n hn hwf.1 hwf.2.1
        (fun x => fcfsDuration_nonneg _ x) (fun st t => argminRange_lt hn _)
        (wf_esBound hwf _) tstar htsG
      calc M = es tstar := htseq.symm
        _ ≤ es tstar + cpTaskTime G tstar :=
            le_add_of_nonneg_right (cpTaskTime_nonneg G tstar)
        _ = esFold (normalize_execution_times G)
              (fcfsDuration (normalize_execution_times G)) tstar +
            fcfsDuration (normalize_execution_times G) tstar := by
            rw [hesc, hdur tstar htsG]
        _ ≤ _ := hge
    · intro n A hn hA
      rw [hclM]
      have hesc2 : esFold G (evalDuration G) = es :=
        (esFold_congr G (evalDuration G) (cpTaskTime G) hdur2).trans hes.symm
      have hge := simRun_makespan_ge G (evalDuration G) (nodePowers n)
        (fun _ t => A t) n hn hwf.1 hwf.2.1
        (fun x => evalDuration_nonneg G x) (fun st t => hA t)
        (wf_esBound hwf _) tstar htsG
      calc M = es tstar := htseq.symm
        _ ≤ es tstar + cpTaskTime G tstar :=
            le_add_of_nonneg_right (cpTaskTime_nonneg G tstar)
        _ = esFold G (evalDuration G) tstar + evalDuration G tstar := by
            rw [hesc2, hdur2 tstar htsG]
        _ ≤ _ := hge
    · intro avg n st havg hn hcompn hfloor hcommc hrun
      rw [hclM]
      have havg0 : (0 : ℚ) ≤ avg := le_of_lt havg
      have hne : avg ≠ 0 := ne_of_gt havg
      have hinv : (0 : ℚ) ≤ 1/avg := by positivity
      have hcost_eq : ∀ t ∈ G.tasks, heftCost avg G t = (1/avg) * cpTaskTime G t := by
        intro t ht
        obtain ⟨e, he⟩ := hexec t ht
        have hfl := hfloor t (hG ▸ ht) e he
        have hcpe : cpTaskTime G t = e := by
          rw [cpTaskTime, he]
          show qmax (1/10) e = e
          rw [qmax]
          by_cases h : (1/10 : ℚ) < e
          · rw [if_pos h]
          · rw [if_neg h]
            exact le_antisymm hfl (not_lt.mp h)
        rw [hcpe]
        simp only [heftCost, hcompn t (hG ▸ ht), he]
        rw [div_eq_mul_inv, one_div, mul_comm]
      have hcostnn : ∀ x ∈ G.tasks, 0 ≤ heftCost avg G x := by
        intro x hx
        rw [hcost_eq x hx]
        exact mul_nonneg hinv (cpTaskTime_nonneg G x)
      have hge := heft_makespan_ge G hwf avg n hn havg0 hcostnn
        (heftComm_nonneg havg0 hcommc) st hrun tstar htsG
      have hesc3 : esFold G (heftCost avg G) = fun x => (1/avg) * es x := by
        have h1 := esFold_congr G (heftCost avg G)
          (fun t => (1/avg) * cpTaskTime G t) hcost_eq
        rw [h1, esFold_smul G (1/avg) hinv (cpTaskTime G)]
      have hkey : (esFold G (heftCost avg G) tstar + heftCost avg G tstar) * avg =
          es tstar + cpTaskTime G tstar := by
        rw [hesc3, hcost_eq tstar htsG]
        field_simp
      calc M = es tstar := htseq.symm
        _ ≤ es tstar + cpTaskTime G tstar :=
            le_add_of_nonneg_right (cpTaskTime_nonneg G tstar)
        _ = (esFold G (heftCost avg G) tstar + heftCost avg G tstar) * avg :=
            hkey.symm
        _ ≤ heftMakespan G avg n := hge

/-- Witness for the amended C1 at the chain graph: the critical length
10 minus the duration 5 of the last critical-path task bounds the FCFS
makespan 6 from below. -/
theorem makespan_ge_shifted_critical_length_witness :
    ∃ c, ([0] : List ℕ).getLast? = some c ∧
      (10 : ℚ) - cpTaskTime Gchain c ≤ (schedule_fcfs Gchain 2).makespan := by
  obtain ⟨c, hc1, hc2, _, _⟩ := makespan_ge_shifted_critical_length Gchain
    ⟨by decide, by decide, by decide⟩
    (by
      intro t ht
      have ht2 : t = 0 ∨ t = 1 := by simpa [Gchain] using ht
      rcases ht2 with rfl | rfl
      · exact ⟨5, by decide⟩
      · exact ⟨1, by decide⟩)
    (show find_critical_path Gchain = some ([0], 10) by decide)
  exact ⟨c, hc1, hc2 2 (by norm_num)⟩


/-- Witness for C2: with a constant sampling oracle on the chain graph
and critical length 10, three iterations end in MAX_ITER_REACHED, and by
the characterisation no convergence condition holds at any of them. -/
theorem qipso_convergence_iff_witness :
    (run_optimization Gchain 2 1 3 10 (fun _ _ _ => 0)).1 = QStatus.maxIterReached ∧
    ∀ i < 3, ¬ ConvCond 10 (stateAfter Gchain 2 1 (fun _ _ _ => 0) (i + 1)) :=
  ⟨by decide,
   (qipso_convergence_iff Gchain 2 1 3 10 (fun _ _ _ => 0)).2.mp (by decide)⟩

end QTO
